import Mathlib

/-!
Shallow embedding of the Huffman codec (`src/lib/huffman.ts`) and proofs of
the specification claims.

Modelling conventions:
* JS strings iterated with `for..of` become `List Char` (code points).
* JS objects used as maps (`FrequencyMap`, `CodeMap`) become association
  lists `List (Char × _)` in key-insertion order, which is the enumeration
  order of `Object.keys` / `JSON.stringify` for the single-character keys
  produced here.
* The TS type `HuffmanNode | null` becomes one inductive with a `null`
  constructor, so nullable child references are represented directly.
* `Uint8Array` contents become `List Nat` with values below 256 by
  construction.
* JS numbers that the codec only ever uses as non-negative integers
  (frequencies, lengths, byte values, `paddingBits`) become `Nat`; the
  derived `compressionRatio` is kept exactly as a rational.
* Loops whose index does not structurally decrease (`bubbleUp`,
  `bubbleDown`, the tree-merging `while` loop) are written with an explicit
  fuel argument so that every definition is kernel-computable; the fuel
  supplied at each call site provably dominates the number of iterations
  (the same bound that makes the source loops terminate).
-/

namespace Huffman

/-- The TS value space `HuffmanNode | null`: `null`, or a record with the
fields of the `HuffmanNode` interface — `char` is `null` (here `none`) on
internal nodes, `left`/`right` are nullable children, `freq` is the subtree
weight and `id` is the visualization label `node_<k>` (modelled by its
counter value `k`). -/
inductive HuffmanNode : Type where
  | null : HuffmanNode
  | mk (char : Option Char) (freq : Nat) (left right : HuffmanNode)
      (id : Nat) : HuffmanNode
deriving DecidableEq

namespace HuffmanNode

def char : HuffmanNode → Option Char
  | .null => none
  | .mk c _ _ _ _ => c

def freq : HuffmanNode → Nat
  | .null => 0
  | .mk _ f _ _ _ => f

def left : HuffmanNode → HuffmanNode
  | .null => .null
  | .mk _ _ l _ _ => l

def right : HuffmanNode → HuffmanNode
  | .null => .null
  | .mk _ _ _ r _ => r

def id : HuffmanNode → Nat
  | .null => 0
  | .mk _ _ _ _ i => i

instance : Inhabited HuffmanNode := ⟨.null⟩

end HuffmanNode

/-- Frequency of the heap-array entry at index `i` (out-of-range reads return
the default node, and are never performed by the modelled operations). -/
def freqAt (l : List HuffmanNode) (i : Nat) : Nat :=
  (l.getD i default).freq

/-- The simultaneous swap `[heap[i], heap[j]] = [heap[j], heap[i]]`. -/
def heapSwap (l : List HuffmanNode) (i j : Nat) : List HuffmanNode :=
  (l.set i (l.getD j default)).set j (l.getD i default)

namespace MinHeap

/-- The `bubbleUp` loop of `MinHeap`.  The loop index moves from `i` to
`(i-1)/2`, so `i` strictly decreases and `fuel > i` iterations always
suffice; `bubbleUp` below supplies that fuel. -/
def bubbleUpF : Nat → List HuffmanNode → Nat → List HuffmanNode
  | 0, l, _ => l
  | fuel + 1, l, i =>
    if i = 0 then l
    else
      let p := (i - 1) / 2
      if freqAt l p ≤ freqAt l i then l
      else bubbleUpF fuel (heapSwap l p i) p

def bubbleUp (l : List HuffmanNode) (i : Nat) : List HuffmanNode :=
  bubbleUpF (i + 1) l i

/-- `smallest` after the left-child `if` of the `bubbleDown` loop body. -/
def downS1 (l : List HuffmanNode) (i : Nat) : Nat :=
  if 2 * i + 1 < l.length ∧ freqAt l (2 * i + 1) < freqAt l i then 2 * i + 1
  else i

/-- `smallest` after both child `if`s of the `bubbleDown` loop body. -/
def downTarget (l : List HuffmanNode) (i : Nat) : Nat :=
  if 2 * i + 2 < l.length ∧ freqAt l (2 * i + 2) < freqAt l (downS1 l i)
  then 2 * i + 2 else downS1 l i

/-- The `bubbleDown` loop of `MinHeap`.  The index strictly increases while
staying below the length, so `l.length` iterations always suffice;
`bubbleDown` below supplies that fuel. -/
def bubbleDownF : Nat → List HuffmanNode → Nat → List HuffmanNode
  | 0, l, _ => l
  | fuel + 1, l, i =>
    let s := downTarget l i
    if s = i then l
    else bubbleDownF fuel (heapSwap l s i) s

def bubbleDown (l : List HuffmanNode) (i : Nat) : List HuffmanNode :=
  bubbleDownF l.length l i

/-- `insert`: push at the end, then bubble up from the last index. -/
def insert (l : List HuffmanNode) (n : HuffmanNode) : List HuffmanNode :=
  bubbleUp (l ++ [n]) l.length

/-- `extractMin`: returns the root (or `none` on an empty heap) together with
the remaining heap state (`pop` the last element to the root, bubble down). -/
def extractMin : List HuffmanNode → Option HuffmanNode × List HuffmanNode
  | [] => (none, [])
  | [x] => (some x, [])
  | x :: y :: rest =>
    (some x,
      bubbleDown (((x :: y :: rest).dropLast).set 0 ((y :: rest).getLast (by simp))) 0)

end MinHeap

/-- `calculateFrequencies`: one `frequencies[char] = (frequencies[char] || 0) + 1`
step of the loop, on the association-list model of the JS object. -/
def bumpFreq : List (Char × Nat) → Char → List (Char × Nat)
  | [], c => [(c, 1)]
  | (k, v) :: rest, c =>
    if k = c then (k, v + 1) :: rest else (k, v) :: bumpFreq rest c

def calculateFrequencies (text : List Char) : List (Char × Nat) :=
  text.foldl bumpFreq []

/-- The tree-merging `while (heap.size() > 1)` loop of `buildHuffmanTree`,
followed by the final `extractMin`.  Each iteration removes two nodes and
inserts one, so the heap length strictly decreases and a fuel equal to the
initial heap length always suffices; `counter` threads `nodeIdCounter`. -/
def mergeLoopF : Nat → List HuffmanNode → Nat → Option HuffmanNode
  | 0, heap, _ => (MinHeap.extractMin heap).1
  | fuel + 1, heap, counter =>
    if 1 < heap.length then
      match (MinHeap.extractMin heap).1 with
      | some l =>
        match (MinHeap.extractMin (MinHeap.extractMin heap).2).1 with
        | some r =>
          mergeLoopF fuel
            (MinHeap.insert (MinHeap.extractMin (MinHeap.extractMin heap).2).2
              (.mk none (l.freq + r.freq) l r counter))
            (counter + 1)
        | none => none
      | none => none
    else (MinHeap.extractMin heap).1

/-- The heap after the leaf-insertion loop of `buildHuffmanTree`: one leaf
per key of the frequency table, ids `0, 1, ...` in key order. -/
def leafHeap (freqs : List (Char × Nat)) : List HuffmanNode :=
  freqs.enum.foldl
    (fun h p => MinHeap.insert h (.mk (some p.2.1) p.2.2 .null .null p.1)) []

/-- `buildHuffmanTree`: reset the id counter, insert one leaf per key of the
frequency table, wrap a single leaf in a synthetic root (with absent right
child), otherwise merge greedily via the min-heap. -/
def buildHuffmanTree (freqs : List (Char × Nat)) : HuffmanNode :=
  if freqs.isEmpty then .null
  else
    if (leafHeap freqs).length = 1 then
      match (MinHeap.extractMin (leafHeap freqs)).1 with
      | some node => .mk none node.freq node .null freqs.length
      | none => .null
    else (mergeLoopF (leafHeap freqs).length (leafHeap freqs) freqs.length).getD .null

/-- The recursive `traverse` of `generateCodes`: a node with a non-null
`char` records `code || '0'`; otherwise recurse left with `code + '0'` and
right with `code + '1'` (skipping null children). -/
def traverse : HuffmanNode → List Char → List (Char × List Char)
  | .null, _ => []
  | .mk (some c) _ _ _ _, code => [(c, if code.isEmpty then ['0'] else code)]
  | .mk none _ l r _, code =>
    (if l = .null then [] else traverse l (code ++ ['0'])) ++
    (if r = .null then [] else traverse r (code ++ ['1']))

def generateCodes (tree : HuffmanNode) : List (Char × List Char) :=
  match tree with
  | .null => []
  | t => traverse t []

/-- `parseInt(s, 2)` on the '0'/'1' slices produced by the bit packer. -/
def bitsToNat (bits : List Char) : Nat :=
  bits.foldl (fun a c => 2 * a + (if c = '1' then 1 else 0)) 0

/-- `byte.toString(2)` for `byte > 0` (most-significant bit first); the value
halves at each step, so fuel `n` suffices for input `n`. -/
def natToBitsF : Nat → Nat → List Char
  | 0, _ => []
  | fuel + 1, n =>
    if n = 0 then []
    else natToBitsF fuel (n / 2) ++ [if n % 2 = 1 then '1' else '0']

def natToBits (n : Nat) : List Char :=
  natToBitsF n n

/-- `byte.toString(2).padStart(8, '0')` (with `toString(2)` giving `"0"` for
zero). -/
def byteToBits (b : Nat) : List Char :=
  let s := if b = 0 then ['0'] else natToBits b
  List.replicate (8 - s.length) '0' ++ s

/-- The byte-packing loop: slice the padded bit string into 8-bit groups and
parse each as an unsigned byte.  The input length is always a multiple of 8
(right-padding has been applied), so the catch-all case is unreachable. -/
def packBytes : List Char → List Nat
  | b0 :: b1 :: b2 :: b3 :: b4 :: b5 :: b6 :: b7 :: rest =>
    bitsToNat [b0, b1, b2, b3, b4, b5, b6, b7] :: packBytes rest
  | [] => []
  | _ => []

/-- UTF-8 encoding of one code point (`TextEncoder`). -/
def utf8EncodeChar (c : Char) : List Nat :=
  let v := c.toNat
  if v < 0x80 then [v]
  else if v < 0x800 then [0xC0 + v / 64, 0x80 + v % 64]
  else if v < 0x10000 then
    [0xE0 + v / 4096, 0x80 + v / 64 % 64, 0x80 + v % 64]
  else
    [0xF0 + v / 262144, 0x80 + v / 4096 % 64, 0x80 + v / 64 % 64, 0x80 + v % 64]

def utf8Encode (s : List Char) : List Nat :=
  s.flatMap utf8EncodeChar

structure CompressionResult where
  compressedData : List Nat
  codeMap : List (Char × List Char)
  originalSize : Nat
  compressedSize : Nat
  compressionRatio : Rat
  tree : HuffmanNode
  frequencyMap : List (Char × Nat)
  paddingBits : Nat
deriving DecidableEq

/-- `compress`: frequency table → tree → code table → concatenated bit
string → zero-padding to a byte boundary → packed bytes.  The `codeMap[char]`
lookup always succeeds for characters of the input text; its `getD []`
default is unreachable. -/
def compress (text : List Char) : CompressionResult :=
  if text.isEmpty then
    { compressedData := [], codeMap := [], originalSize := 0,
      compressedSize := 0, compressionRatio := 0, tree := .null,
      frequencyMap := [], paddingBits := 0 }
  else
    let originalSize := (utf8Encode text).length
    let frequencyMap := calculateFrequencies text
    let tree := buildHuffmanTree frequencyMap
    let codeMap := generateCodes tree
    let binaryString := text.flatMap (fun c => (codeMap.lookup c).getD [])
    let paddingBits := (8 - binaryString.length % 8) % 8
    let padded := binaryString ++ List.replicate paddingBits '0'
    let byteArray := packBytes padded
    let compressedSize := byteArray.length
    { compressedData := byteArray, codeMap := codeMap,
      originalSize := originalSize, compressedSize := compressedSize,
      compressionRatio :=
        ((originalSize : Rat) - (compressedSize : Rat)) / (originalSize : Rat) * 100,
      tree := tree, frequencyMap := frequencyMap, paddingBits := paddingBits }

structure DecompressionResult where
  decompressedText : List Char
  success : Bool
  error : Option (List Char) := none
deriving DecidableEq

/-- One step `currentNode = bit === '0' ? currentNode.left! : currentNode.right!`
followed by the leaf test; `none` models the `TypeError` the non-null
assertion would raise on a missing child (never reached on built trees). -/
def decodeStep (root cur : HuffmanNode) (bit : Char) (acc : List Char) :
    Option (HuffmanNode × List Char) :=
  match (if bit = '0' then cur.left else cur.right) with
  | .null => none
  | .mk c f l r i =>
    match c with
    | some ch => some (root, acc ++ [ch])
    | none => some (.mk c f l r i, acc)

/-- Is `currentNode` the single-character shortcut shape
(`left && !right && left.char !== null`)? -/
def isShortcut (cur : HuffmanNode) : Bool :=
  match cur.left, cur.right with
  | .mk (some _) _ _ _ _, .null => true
  | _, _ => false

def shortcutChars (cur : HuffmanNode) : List Char :=
  match cur.left with
  | .mk (some c) _ _ _ _ => [c]
  | _ => []

/-- The decoding `for (const bit of binaryString)` loop. -/
def decodeLoop (root : HuffmanNode) : List Char → HuffmanNode → List Char →
    Option (List Char)
  | [], _, acc => some acc
  | bit :: rest, cur, acc =>
    if isShortcut cur then decodeLoop root rest cur (acc ++ shortcutChars cur)
    else
      match decodeStep root cur bit acc with
      | none => none
      | some (nxt, acc2) => decodeLoop root rest nxt acc2

/-- `decompress`: `none` models an uncaught runtime exception (which never
happens for trees produced by `buildHuffmanTree`); the code never sets
`success` to `false` or fills `error`. -/
def decompress (compressedData : List Nat) (tree : HuffmanNode)
    (paddingBits : Nat) : Option DecompressionResult :=
  match tree with
  | .null => some { decompressedText := [], success := true }
  | t =>
    if compressedData.isEmpty then some { decompressedText := [], success := true }
    else
      let binaryString := compressedData.flatMap byteToBits
      let binaryString :=
        if paddingBits > 0 then binaryString.take (binaryString.length - paddingBits)
        else binaryString
      (decodeLoop t binaryString t []).map
        (fun s => { decompressedText := s, success := true })

/-! ### Container codec

`createCompressedFile` serializes `{codeMap, paddingBits, frequencyMap}`
with `JSON.stringify`, encodes it as UTF-8 and frames it behind a 4-byte
little-endian length; `parseCompressedFile` reverses this and returns `none`
on any exception.  `JSON.stringify` / `JSON.parse` / `TextDecoder` are
host-environment builtins; they are modelled below by an executable
serializer following the ECMAScript quoting rules and by a parser for the
document shape this serializer emits (any deviation from that shape yields
`none`, matching the `try/catch` that converts exceptions to `null`). -/

def hexDigitChar (n : Nat) : Char :=
  if n < 10 then Char.ofNat (48 + n) else Char.ofNat (87 + n)

/-- ECMAScript `QuoteJSONString` escaping of one character. -/
def jsonEscapeChar (c : Char) : List Char :=
  if c = '"' then ['\\', '"']
  else if c = '\\' then ['\\', '\\']
  else if c = Char.ofNat 8 then ['\\', 'b']
  else if c = Char.ofNat 9 then ['\\', 't']
  else if c = Char.ofNat 10 then ['\\', 'n']
  else if c = Char.ofNat 12 then ['\\', 'f']
  else if c = Char.ofNat 13 then ['\\', 'r']
  else if c.toNat < 32 then
    ['\\', 'u', '0', '0', hexDigitChar (c.toNat / 16), hexDigitChar (c.toNat % 16)]
  else [c]

def jsonQuote (s : List Char) : List Char :=
  '"' :: s.flatMap jsonEscapeChar ++ ['"']

/-- Decimal printing of a positive integer, most-significant digit first;
the value shrinks at each step, so fuel `n` suffices for input `n`. -/
def natDigitsF : Nat → Nat → List Char
  | 0, _ => []
  | fuel + 1, n =>
    if n = 0 then []
    else natDigitsF fuel (n / 10) ++ [Char.ofNat (48 + n % 10)]

def natDigits (n : Nat) : List Char :=
  natDigitsF n n

/-- `JSON.stringify` of the non-negative integers appearing in the metadata. -/
def printNat (n : Nat) : List Char :=
  if n = 0 then ['0'] else natDigits n

/-- `JSON.stringify` of an object whose values are serialized by `pv`,
with keys in insertion order and no whitespace. -/
def jsonObjOf {α : Type} (pv : α → List Char) (m : List (Char × α)) : List Char :=
  '\x7b' :: (List.intercalate [','] (m.map (fun p => jsonQuote [p.1] ++ ':' :: pv p.2))) ++ ['\x7d']

/-- The metadata record `\x7b"codeMap":…,"paddingBits":…,"frequencyMap":…\x7d`. -/
def metadataJson (codeMap : List (Char × List Char)) (paddingBits : Nat)
    (frequencyMap : List (Char × Nat)) : List Char :=
  ("\x7b\"codeMap\":".toList) ++ jsonObjOf jsonQuote codeMap ++
  (",\"paddingBits\":".toList) ++ printNat paddingBits ++
  (",\"frequencyMap\":".toList) ++ jsonObjOf printNat frequencyMap ++ ['\x7d']

/-- The 4 little-endian bytes of `metadataLength` (a `Uint32Array` cell, so
the value is stored modulo `2^32`). -/
def u32le (n : Nat) : List Nat :=
  [n % 256, n / 256 % 256, n / 65536 % 256, n / 16777216 % 256]

/-- `createCompressedFile`:
`[4 bytes metadata length][metadata][compressed data]`. -/
def createCompressedFile (result : CompressionResult) : List Nat :=
  let metadataBytes :=
    utf8Encode (metadataJson result.codeMap result.paddingBits result.frequencyMap)
  u32le metadataBytes.length ++ metadataBytes ++ result.compressedData

/-- UTF-8 decoding (`TextDecoder`, non-fatal): well-formed sequences decode
to their code point; the claims only ever apply this to outputs of
`utf8Encode`, malformed suffixes decode byte-wise to U+FFFD.  Every step
consumes at least one byte, so fuel `l.length` (supplied by `utf8Decode`)
suffices. -/
def utf8DecodeF : Nat → List Nat → List Char
  | 0, _ => []
  | fuel + 1, l =>
    match l with
    | [] => []
    | b :: rest =>
      if b < 0x80 then Char.ofNat b :: utf8DecodeF fuel rest
      else if 0xC0 ≤ b ∧ b < 0xE0 then
        match rest with
        | b1 :: rest1 =>
          if 0x80 ≤ b1 ∧ b1 < 0xC0 then
            Char.ofNat ((b - 0xC0) * 64 + (b1 - 0x80)) :: utf8DecodeF fuel rest1
          else Char.ofNat 0xFFFD :: utf8DecodeF fuel (b1 :: rest1)
        | [] => [Char.ofNat 0xFFFD]
      else if 0xE0 ≤ b ∧ b < 0xF0 then
        match rest with
        | b1 :: b2 :: rest2 =>
          if (0x80 ≤ b1 ∧ b1 < 0xC0) ∧ (0x80 ≤ b2 ∧ b2 < 0xC0) then
            Char.ofNat ((b - 0xE0) * 4096 + (b1 - 0x80) * 64 + (b2 - 0x80)) ::
              utf8DecodeF fuel rest2
          else Char.ofNat 0xFFFD :: utf8DecodeF fuel (b1 :: b2 :: rest2)
        | other => Char.ofNat 0xFFFD :: utf8DecodeF fuel other
      else if 0xF0 ≤ b ∧ b < 0xF8 then
        match rest with
        | b1 :: b2 :: b3 :: rest3 =>
          if (0x80 ≤ b1 ∧ b1 < 0xC0) ∧ (0x80 ≤ b2 ∧ b2 < 0xC0) ∧
              (0x80 ≤ b3 ∧ b3 < 0xC0) then
            Char.ofNat ((b - 0xF0) * 262144 + (b1 - 0x80) * 4096 +
              (b2 - 0x80) * 64 + (b3 - 0x80)) :: utf8DecodeF fuel rest3
          else Char.ofNat 0xFFFD :: utf8DecodeF fuel (b1 :: b2 :: b3 :: rest3)
        | other => Char.ofNat 0xFFFD :: utf8DecodeF fuel other
      else Char.ofNat 0xFFFD :: utf8DecodeF fuel rest

def utf8Decode (l : List Nat) : List Char :=
  utf8DecodeF l.length l

def hexVal (c : Char) : Option Nat :=
  if 48 ≤ c.toNat ∧ c.toNat ≤ 57 then some (c.toNat - 48)
  else if 97 ≤ c.toNat ∧ c.toNat ≤ 102 then some (c.toNat - 87)
  else if 65 ≤ c.toNat ∧ c.toNat ≤ 70 then some (c.toNat - 55)
  else none

def unescChar (c : Char) : Option Char :=
  if c = '"' then some '"'
  else if c = '\\' then some '\\'
  else if c = '/' then some '/'
  else if c = 'b' then some (Char.ofNat 8)
  else if c = 't' then some (Char.ofNat 9)
  else if c = 'n' then some (Char.ofNat 10)
  else if c = 'f' then some (Char.ofNat 12)
  else if c = 'r' then some (Char.ofNat 13)
  else none

/-- Lexing of a JSON string literal body (after the opening quote), undoing
`jsonEscapeChar`; returns the decoded characters and the input after the
closing quote. -/
def lexJStr : List Char → Option (List Char × List Char)
  | [] => none
  | c :: rest =>
    if c = '"' then some ([], rest)
    else if c = '\\' then
      match rest with
      | 'u' :: h1 :: h2 :: h3 :: h4 :: rest2 =>
        match hexVal h1, hexVal h2, hexVal h3, hexVal h4 with
        | some v1, some v2, some v3, some v4 =>
          (lexJStr rest2).map
            (fun p => (Char.ofNat (v1 * 4096 + v2 * 256 + v3 * 16 + v4) :: p.1, p.2))
        | _, _, _, _ => none
      | e :: rest2 =>
        match unescChar e with
        | some u => (lexJStr rest2).map (fun p => (u :: p.1, p.2))
        | none => none
      | [] => none
    else (lexJStr rest).map (fun p => (c :: p.1, p.2))

/-- Lexing of a decimal natural number at the head of the input. -/
def lexNat (l : List Char) : Option (Nat × List Char) :=
  let ds := l.takeWhile (fun c => 48 ≤ c.toNat ∧ c.toNat ≤ 57)
  if ds.isEmpty then none
  else some (ds.foldl (fun a c => 10 * a + (c.toNat - 48)) 0,
    l.dropWhile (fun c => 48 ≤ c.toNat ∧ c.toNat ≤ 57))

/-- Entry-list loop of a JSON object with single-character keys, positioned
at the opening quote of a key; `pv` lexes one value.  Each iteration
consumes at least one character, so fuel `l.length` suffices. -/
def lexObjEntriesF {α : Type} (pv : List Char → Option (α × List Char)) :
    Nat → List Char → Option (List (Char × α) × List Char)
  | 0, _ => none
  | fuel + 1, l =>
    match l with
    | '"' :: rest =>
      match lexJStr rest with
      | some ([k], ':' :: r1) =>
        match pv r1 with
        | some (v, ',' :: r2) =>
          (lexObjEntriesF pv fuel r2).map (fun p => ((k, v) :: p.1, p.2))
        | some (v, '\x7d' :: r2) => some ([(k, v)], r2)
        | _ => none
      | _ => none
    | _ => none

/-- A JSON object with single-character keys. -/
def lexObj {α : Type} (pv : List Char → Option (α × List Char))
    (l : List Char) : Option (List (Char × α) × List Char) :=
  match l with
  | '\x7b' :: '\x7d' :: rest => some ([], rest)
  | '\x7b' :: rest => lexObjEntriesF pv rest.length rest
  | _ => none

/-- A JSON string literal (value position). -/
def lexStrVal (l : List Char) : Option (List Char × List Char) :=
  match l with
  | '"' :: rest => lexJStr rest
  | _ => none

/-- Drops the literal `pat` from the head of `l`. -/
def dropLit : List Char → List Char → Option (List Char)
  | [], l => some l
  | p :: ps, c :: cs => if c = p then dropLit ps cs else none
  | _ :: _, [] => none

/-- `JSON.parse` restricted to the metadata document shape emitted by
`createCompressedFile`; anything else raises, i.e. returns `none`. -/
def parseMetadata (s : List Char) :
    Option (List (Char × List Char) × Nat × List (Char × Nat)) :=
  match dropLit ("\x7b\"codeMap\":".toList) s with
  | none => none
  | some s1 =>
    match lexObj lexStrVal s1 with
    | none => none
    | some (codeMap, s2) =>
      match dropLit (",\"paddingBits\":".toList) s2 with
      | none => none
      | some s3 =>
        match lexNat s3 with
        | none => none
        | some (paddingBits, s4) =>
          match dropLit (",\"frequencyMap\":".toList) s4 with
          | none => none
          | some s5 =>
            match lexObj lexNat s5 with
            | none => none
            | some (frequencyMap, s6) =>
              match s6 with
              | ['\x7d'] => some (codeMap, paddingBits, frequencyMap)
              | _ => none

structure ParsedFile where
  compressedData : List Nat
  codeMap : List (Char × List Char)
  paddingBits : Nat
  frequencyMap : List (Char × Nat)
deriving DecidableEq

/-- `parseCompressedFile`: read the little-endian `metadataLength` (throws,
hence `none`, if fewer than 4 bytes), slice out the metadata (throws if the
buffer is shorter than `4 + metadataLength`), decode and parse it, and take
the remainder as payload. -/
def parseCompressedFile (data : List Nat) : Option ParsedFile :=
  if data.length < 4 then none
  else
    let metadataLength :=
      data.getD 0 0 + 256 * data.getD 1 0 + 65536 * data.getD 2 0 +
        16777216 * data.getD 3 0
    if 4 + metadataLength > data.length then none
    else
      let metadataBytes := (data.drop 4).take metadataLength
      let metadataString := utf8Decode metadataBytes
      match parseMetadata metadataString with
      | none => none
      | some (codeMap, paddingBits, frequencyMap) =>
        some { compressedData := data.drop (4 + metadataLength),
               codeMap := codeMap, paddingBits := paddingBits,
               frequencyMap := frequencyMap }

/-! ### Auxiliary definitions used by the verification -/

/-- Three equal-frequency leaves used to refute the stable-tie-break claim. -/
def tieA : HuffmanNode := .mk (some 'a') 1 .null .null 0

def tieB : HuffmanNode := .mk (some 'b') 1 .null .null 1

def tieC : HuffmanNode := .mk (some 'c') 1 .null .null 2

/-- Shapes reachable by greedy merging of leaves: a leaf node carries a
character and no children; an internal merge node has `char = none` and two
non-null (in fact well-formed) children. -/
inductive WFTree : HuffmanNode → Prop
  | leaf (c : Char) (f i : Nat) : WFTree (.mk (some c) f .null .null i)
  | node (f i : Nat) (l r : HuffmanNode) (hl : WFTree l) (hr : WFTree r) :
      WFTree (.mk none f l r i)

/-- The characters at the leaves of a tree, in depth-first left-to-right
order. -/
def leafChars : HuffmanNode → List Char
  | .null => []
  | .mk (some c) _ _ _ _ => [c]
  | .mk none _ l r _ => leafChars l ++ leafChars r

/-- The root-to-leaf path codes of a subtree, relative to its own root. -/
def relCodes : HuffmanNode → List (Char × List Char)
  | .null => []
  | .mk (some c) _ _ _ _ => [(c, [])]
  | .mk none _ l r _ =>
    (relCodes l).map (fun p => (p.1, '0' :: p.2)) ++
      (relCodes r).map (fun p => (p.1, '1' :: p.2))

/-- The concatenated code bit string built by `compress` for its input. -/
def encodedBits (text : List Char) : List Char :=
  text.flatMap (fun c =>
    ((generateCodes (buildHuffmanTree (calculateFrequencies text))).lookup c).getD [])

/-- The binary-heap property: each entry is at least its parent at
`⌊(i−1)/2⌋`. -/
def IsHeap (l : List HuffmanNode) : Prop :=
  ∀ j, 0 < j → j < l.length → freqAt l ((j - 1) / 2) ≤ freqAt l j

/-- One operation on the priority-queue state. -/
inductive HeapOp : Type where
  | ins (n : HuffmanNode) : HeapOp
  | ext : HeapOp

def applyHeapOp (h : List HuffmanNode) : HeapOp → List HuffmanNode
  | .ins n => MinHeap.insert h n
  | .ext => (MinHeap.extractMin h).2

/-- The queue contents after a sequence of `insert`/`extractMin` operations
starting from the empty heap. -/
def runHeapOps (ops : List HeapOp) : List HuffmanNode :=
  ops.foldl applyHeapOp []

/-- Boolean test: `begins a b` holds when `a` is a leading block (prefix) of
`b`. -/
def begins : List Char → List Char → Bool
  | [], _ => true
  | _ :: _, [] => false
  | a :: as, b :: bs => a = b && begins as bs

/-! ### Claims about concrete fixtures -/

/-- C5 (counterexample): on the single-character input `"a"` the encoded bit
string has length 1, so `compress` produces `paddingBits = 7`, which is not
in the half-open interval `[0,7)` the claim states. -/
theorem claim_C5_counterexample :
    (compress ['a']).paddingBits = 7 ∧ ¬ (compress ['a']).paddingBits < 7 := by
  decide

/-- C5 (amended): for every input text, the `paddingBits` value produced by
`compress` is an integer in the closed interval `[0,7]`, i.e.
`0 ≤ paddingBits < 8`. -/
theorem claim_C5_padding_bound (text : List Char) :
    (compress text).paddingBits < 8 := by
  by_cases h : text.isEmpty
  · simp [compress, h]
  · simp [compress, h]
    omega

/-- C7: compressing `"aaaa"` yields the code table `{a: "0"}`, a tree that is
the single leaf `a` wrapped in a synthetic internal root whose left child is
the leaf and whose right child is absent, and decompressing the packed
payload with that tree and `paddingBits` reproduces `"aaaa"` with
`success = true`. -/
theorem claim_C7_single_symbol :
    (compress "aaaa".toList).codeMap = [('a', ['0'])] ∧
    (compress "aaaa".toList).tree =
      .mk none 4 (.mk (some 'a') 4 .null .null 0) .null 1 ∧
    decompress (compress "aaaa".toList).compressedData
        (compress "aaaa".toList).tree (compress "aaaa".toList).paddingBits =
      some { decompressedText := "aaaa".toList, success := true, error := none } := by
  decide

/-- C8: compressing `"aab"` yields frequencies `{a:2, b:1}`, a two-leaf tree
with root frequency 3, one-bit codes of opposite bit values for `a` and `b`,
an encoded bit length of 3 (so `8·compressedSize − paddingBits = 3`),
`paddingBits = 5` and `compressedSize = 1`. -/
theorem claim_C8_fixture :
    (compress "aab".toList).frequencyMap = [('a', 2), ('b', 1)] ∧
    (compress "aab".toList).tree.freq = 3 ∧
    (compress "aab".toList).tree =
      .mk none 3 (.mk (some 'b') 1 .null .null 1) (.mk (some 'a') 2 .null .null 0) 2 ∧
    (((compress "aab".toList).codeMap.lookup 'a' = some ['0'] ∧
        (compress "aab".toList).codeMap.lookup 'b' = some ['1']) ∨
      ((compress "aab".toList).codeMap.lookup 'a' = some ['1'] ∧
        (compress "aab".toList).codeMap.lookup 'b' = some ['0'])) ∧
    8 * (compress "aab".toList).compressedSize - (compress "aab".toList).paddingBits = 3 ∧
    (compress "aab".toList).paddingBits = 5 ∧
    (compress "aab".toList).compressedSize = 1 := by
  decide

/-- C4 (counterexample): insert three equal-frequency nodes in the order
`tieA, tieB, tieC`.  The first extraction returns `tieA`, after which both
`tieB` and `tieC` remain queued with equal frequencies — yet the second
extraction returns the later-inserted `tieC`, not `tieB`.  Ties are
therefore not broken by insertion order. -/
theorem claim_C4_counterexample :
    (MinHeap.extractMin
        (MinHeap.insert (MinHeap.insert (MinHeap.insert [] tieA) tieB) tieC)).1 =
      some tieA ∧
    tieB ∈ (MinHeap.extractMin
        (MinHeap.insert (MinHeap.insert (MinHeap.insert [] tieA) tieB) tieC)).2 ∧
    tieB.freq = tieC.freq ∧
    (MinHeap.extractMin (MinHeap.extractMin
        (MinHeap.insert (MinHeap.insert (MinHeap.insert [] tieA) tieB) tieC)).2).1 =
      some tieC ∧
    tieC ≠ tieB := by
  decide

/-! ### Permutation properties of the heap operations -/

lemma cons_getD_set_perm :
    ∀ (t : List HuffmanNode) (k : Nat) (a : HuffmanNode), k < t.length →
      List.Perm (t.getD k default :: t.set k a) (a :: t) := by
  intro t
  induction t with
  | nil => intro k a hk; simp at hk
  | cons b t ih =>
    intro k a hk
    cases k with
    | zero => simpa using List.Perm.swap a b t
    | succ k =>
      have hk' : k < t.length := by simpa using hk
      exact (List.Perm.swap b (t.getD k default) (t.set k a)).trans
        ((List.Perm.cons b (ih k a hk')).trans (List.Perm.swap a b t))

lemma getD_set_ne (l : List HuffmanNode) (i j : Nat) (a : HuffmanNode)
    (h : i ≠ j) : (l.set i a).getD j default = l.getD j default := by
  simp [List.getD, List.getElem?_set_ne h]

lemma heapSwap_length (l : List HuffmanNode) (i j : Nat) :
    (heapSwap l i j).length = l.length := by
  simp [heapSwap]

lemma heapSwap_perm (l : List HuffmanNode) (i j : Nat) (hij : i ≠ j)
    (hi : i < l.length) (hj : j < l.length) :
    List.Perm (heapSwap l i j) l := by
  have h1 := cons_getD_set_perm l i (l.getD j default) hi
  have h2 := cons_getD_set_perm (l.set i (l.getD j default)) j (l.getD i default)
    (by simpa using hj)
  rw [getD_set_ne l i j _ hij] at h2
  have h3 : List.Perm (l.getD j default :: heapSwap l i j)
      (l.getD j default :: l) := h2.trans h1
  exact h3.cons_inv

lemma bubbleUpF_length (fuel : Nat) :
    ∀ (l : List HuffmanNode) (i : Nat), (MinHeap.bubbleUpF fuel l i).length = l.length := by
  induction fuel with
  | zero => intro l i; rfl
  | succ fuel ih =>
    intro l i
    simp only [MinHeap.bubbleUpF]
    split
    · rfl
    · split
      · rfl
      · rw [ih, heapSwap_length]

lemma bubbleUpF_perm (fuel : Nat) :
    ∀ (l : List HuffmanNode) (i : Nat), i < l.length →
      List.Perm (MinHeap.bubbleUpF fuel l i) l := by
  induction fuel with
  | zero => intro l i _; exact List.Perm.refl l
  | succ fuel ih =>
    intro l i hi
    simp only [MinHeap.bubbleUpF]
    split
    · exact List.Perm.refl l
    · split
      · exact List.Perm.refl l
      · rename_i hne _
        have hp : (i - 1) / 2 < i := by omega
        have hperm := ih (heapSwap l ((i - 1) / 2) i) ((i - 1) / 2)
          (by rw [heapSwap_length]; omega)
        exact hperm.trans (heapSwap_perm l _ i (by omega) (by omega) hi)

lemma downTarget_facts (l : List HuffmanNode) (i : Nat)
    (h : MinHeap.downTarget l i ≠ i) :
    i < MinHeap.downTarget l i ∧ MinHeap.downTarget l i < l.length := by
  unfold MinHeap.downTarget at h ⊢
  by_cases h2 : 2 * i + 2 < l.length ∧ freqAt l (2 * i + 2) < freqAt l (MinHeap.downS1 l i)
  · rw [if_pos h2] at h ⊢; exact ⟨by omega, h2.1⟩
  · rw [if_neg h2] at h ⊢
    unfold MinHeap.downS1 at h ⊢
    by_cases h1 : 2 * i + 1 < l.length ∧ freqAt l (2 * i + 1) < freqAt l i
    · rw [if_pos h1] at h ⊢; exact ⟨by omega, h1.1⟩
    · rw [if_neg h1] at h; exact absurd rfl h

lemma bubbleDownF_length (fuel : Nat) :
    ∀ (l : List HuffmanNode) (i : Nat), (MinHeap.bubbleDownF fuel l i).length = l.length := by
  induction fuel with
  | zero => intro l i; rfl
  | succ fuel ih =>
    intro l i
    simp only [MinHeap.bubbleDownF]
    split
    · rfl
    · rw [ih, heapSwap_length]

lemma bubbleDownF_perm (fuel : Nat) :
    ∀ (l : List HuffmanNode) (i : Nat),
      List.Perm (MinHeap.bubbleDownF fuel l i) l := by
  induction fuel with
  | zero => intro l i; exact List.Perm.refl l
  | succ fuel ih =>
    intro l i
    simp only [MinHeap.bubbleDownF]
    split
    · exact List.Perm.refl l
    · rename_i hne
      obtain ⟨hlt, hlen⟩ := downTarget_facts l i hne
      exact (ih _ _).trans (heapSwap_perm l _ i (by omega) hlen (by omega))

lemma insert_length (l : List HuffmanNode) (n : HuffmanNode) :
    (MinHeap.insert l n).length = l.length + 1 := by
  simp [MinHeap.insert, MinHeap.bubbleUp, bubbleUpF_length]

lemma insert_perm (l : List HuffmanNode) (n : HuffmanNode) :
    List.Perm (MinHeap.insert l n) (n :: l) := by
  have h := bubbleUpF_perm (l.length + 1) (l ++ [n]) l.length (by simp)
  exact h.trans (List.perm_append_singleton n l)

lemma extractMin_fst (x : HuffmanNode) (t : List HuffmanNode) :
    (MinHeap.extractMin (x :: t)).1 = some x := by
  cases t <;> rfl

lemma extractMin_snd_length (x : HuffmanNode) (t : List HuffmanNode) :
    (MinHeap.extractMin (x :: t)).2.length = t.length := by
  cases t with
  | nil => rfl
  | cons y rest =>
    simp [MinHeap.extractMin, MinHeap.bubbleDown, bubbleDownF_length]

lemma extractMin_perm (x : HuffmanNode) (t : List HuffmanNode) :
    List.Perm (x :: (MinHeap.extractMin (x :: t)).2) (x :: t) := by
  cases t with
  | nil => rfl
  | cons y rest =>
    refine List.Perm.cons x ?_
    simp only [MinHeap.extractMin, MinHeap.bubbleDown]
    have h1 := bubbleDownF_perm
      ((((x :: y :: rest).dropLast).set 0 ((y :: rest).getLast (by simp))).length)
      (((x :: y :: rest).dropLast).set 0 ((y :: rest).getLast (by simp))) 0
    refine h1.trans ?_
    have hd : (x :: y :: rest).dropLast = x :: (y :: rest).dropLast := by
      simp
    rw [hd]
    simp only [List.set_cons_zero]
    have h2 : List.Perm ((y :: rest).dropLast ++ [(y :: rest).getLast (by simp)])
        ((y :: rest).getLast (by simp) :: (y :: rest).dropLast) :=
      List.perm_append_singleton _ _
    have h3 : (y :: rest).dropLast ++ [(y :: rest).getLast (by simp)] = y :: rest := by
      rw [List.dropLast_append_getLast]
    refine h2.symm.trans ?_
    rw [h3]

/-! ### Well-formed merge trees -/

lemma WFTree.ne_null {t : HuffmanNode} (h : WFTree t) : t ≠ .null := by
  cases h <;> simp

lemma mergeLoopF_one (fuel : Nat) (x : HuffmanNode) (c : Nat) :
    mergeLoopF fuel [x] c = some x := by
  cases fuel <;> rfl

/-- The merge loop on a non-empty heap of well-formed trees (with enough
fuel) returns a well-formed root whose leaves are exactly the leaves of the
heap elements; with at least two elements the root is an internal node. -/
lemma mergeLoopF_spec (fuel : Nat) :
    ∀ (h : List HuffmanNode) (counter : Nat),
      1 ≤ h.length → h.length ≤ fuel + 1 → (∀ n ∈ h, WFTree n) →
      ∃ root, mergeLoopF fuel h counter = some root ∧ WFTree root ∧
        List.Perm (leafChars root) (h.flatMap leafChars) ∧
        (2 ≤ h.length → root.char = none) := by
  induction fuel with
  | zero =>
    intro h c h1 h2 hwf
    obtain ⟨x, t, rfl⟩ := List.exists_cons_of_ne_nil (List.ne_nil_of_length_pos h1)
    have ht : t = [] := by
      simp only [List.length_cons] at h2
      exact List.eq_nil_of_length_eq_zero (by omega)
    subst ht
    refine ⟨x, rfl, hwf x (by simp), ?_, ?_⟩
    · simpa using List.Perm.refl (leafChars x)
    · intro hh; simp at hh
  | succ fuel ih =>
    intro h c h1 h2 hwf
    by_cases hgt : 1 < h.length
    · obtain ⟨x, t, rfl⟩ := List.exists_cons_of_ne_nil (List.ne_nil_of_length_pos h1)
      obtain ⟨y, t', rfl⟩ := List.exists_cons_of_ne_nil
        (List.ne_nil_of_length_pos (show 0 < t.length by
          simp only [List.length_cons] at hgt; omega))
      have hx1 : (MinHeap.extractMin (x :: y :: t')).1 = some x := extractMin_fst x (y :: t')
      have hE1len : (MinHeap.extractMin (x :: y :: t')).2.length = t'.length + 1 := by
        rw [extractMin_snd_length]; simp
      obtain ⟨z, u, hzu⟩ := List.exists_cons_of_ne_nil
        (List.ne_nil_of_length_pos
          (show 0 < (MinHeap.extractMin (x :: y :: t')).2.length by omega))
      have hz1 : (MinHeap.extractMin ((MinHeap.extractMin (x :: y :: t')).2)).1 = some z := by
        rw [hzu, extractMin_fst]
      have hulen : u.length = t'.length := by
        have := congrArg List.length hzu
        simp at this; omega
      have hE2len : (MinHeap.extractMin ((MinHeap.extractMin (x :: y :: t')).2)).2.length
          = t'.length := by
        rw [hzu, extractMin_snd_length, hulen]
      -- membership facts
      have hpermE1 : List.Perm (x :: (MinHeap.extractMin (x :: y :: t')).2) (x :: y :: t') :=
        extractMin_perm x (y :: t')
      have hpermE2 : List.Perm (z :: (MinHeap.extractMin ((MinHeap.extractMin (x :: y :: t')).2)).2)
          ((MinHeap.extractMin (x :: y :: t')).2) := by
        rw [hzu]; exact extractMin_perm z u
      have hmemE1 : ∀ n ∈ (MinHeap.extractMin (x :: y :: t')).2, WFTree n := by
        intro n hn
        exact hwf n (hpermE1.mem_iff.mp (by simp [hn]))
      have hwx : WFTree x := hwf x (by simp)
      have hwz : WFTree z := hmemE1 z (by rw [hzu]; simp)
      have hmemE2 : ∀ n ∈ (MinHeap.extractMin ((MinHeap.extractMin (x :: y :: t')).2)).2,
          WFTree n := by
        intro n hn
        exact hmemE1 n (hpermE2.mem_iff.mp (by simp [hn]))
      -- the merged parent node
      have hwparent : WFTree (.mk none (x.freq + z.freq) x z c) := WFTree.node _ _ _ _ hwx hwz
      -- the new heap
      have hperm3 : List.Perm
          (MinHeap.insert (MinHeap.extractMin ((MinHeap.extractMin (x :: y :: t')).2)).2
            (.mk none (x.freq + z.freq) x z c))
          ((HuffmanNode.mk none (x.freq + z.freq) x z c) ::
            (MinHeap.extractMin ((MinHeap.extractMin (x :: y :: t')).2)).2) :=
        insert_perm _ _
      have hlen3 : (MinHeap.insert (MinHeap.extractMin ((MinHeap.extractMin (x :: y :: t')).2)).2
            (.mk none (x.freq + z.freq) x z c)).length = t'.length + 1 := by
        rw [insert_length, hE2len]
      have hwf3 : ∀ n ∈ MinHeap.insert (MinHeap.extractMin ((MinHeap.extractMin (x :: y :: t')).2)).2
          (.mk none (x.freq + z.freq) x z c), WFTree n := by
        intro n hn
        rcases List.mem_cons.mp (hperm3.mem_iff.mp hn) with hn' | hn'
        · rw [hn']; exact hwparent
        · exact hmemE2 n hn'
      have hred : mergeLoopF (fuel + 1) (x :: y :: t') c =
          mergeLoopF fuel
            (MinHeap.insert (MinHeap.extractMin ((MinHeap.extractMin (x :: y :: t')).2)).2
              (.mk none (x.freq + z.freq) x z c)) (c + 1) := by
        simp only [mergeLoopF]
        rw [if_pos hgt, hx1, hz1]
      obtain ⟨root, hrooteq, hrootwf, hrootperm, hrootchar⟩ :=
        ih (MinHeap.insert (MinHeap.extractMin ((MinHeap.extractMin (x :: y :: t')).2)).2
            (.mk none (x.freq + z.freq) x z c)) (c + 1)
          (by omega) (by simp only [List.length_cons] at h2; omega) hwf3
      refine ⟨root, by rw [hred]; exact hrooteq, hrootwf, ?_, ?_⟩
      · -- leaves of the root are the leaves of the original heap
        refine hrootperm.trans ?_
        have p3 := List.Perm.flatMap_right leafChars hperm3
        have p1 := List.Perm.flatMap_right leafChars hpermE1
        have p2 := List.Perm.flatMap_right leafChars hpermE2
        simp only [List.flatMap_cons] at p3 p1 p2
        refine p3.trans ?_
        have : leafChars (.mk none (x.freq + z.freq) x z c) = leafChars x ++ leafChars z := rfl
        rw [this, List.append_assoc]
        exact (List.Perm.append_left (leafChars x) p2).trans p1
      · -- with ≥ 2 original nodes the root is internal
        intro _
        by_cases hc3 : 2 ≤ (MinHeap.insert (MinHeap.extractMin ((MinHeap.extractMin (x :: y :: t')).2)).2
            (.mk none (x.freq + z.freq) x z c)).length
        · exact hrootchar hc3
        · have ht'0 : t'.length = 0 := by omega
          have hE2nil : (MinHeap.extractMin ((MinHeap.extractMin (x :: y :: t')).2)).2 = [] :=
            List.eq_nil_of_length_eq_zero (by omega)
          rw [hE2nil] at hrooteq hperm3
          have h3eq : MinHeap.insert [] (.mk none (x.freq + z.freq) x z c) =
              [HuffmanNode.mk none (x.freq + z.freq) x z c] :=
            List.perm_singleton.mp hperm3
          rw [h3eq, mergeLoopF_one] at hrooteq
          have : root = HuffmanNode.mk none (x.freq + z.freq) x z c :=
            (Option.some_injective _ hrooteq.symm)
          rw [this]
          rfl
    · -- heap of length exactly 1
      obtain ⟨x, t, rfl⟩ := List.exists_cons_of_ne_nil (List.ne_nil_of_length_pos h1)
      have ht : t = [] := by
        simp only [List.length_cons] at hgt ⊢
        exact List.eq_nil_of_length_eq_zero (by omega)
      subst ht
      refine ⟨x, mergeLoopF_one _ x c, hwf x (by simp), ?_, ?_⟩
      · simpa using List.Perm.refl (leafChars x)
      · intro hh; simp at hh

/-! ### The built tree: well-formedness and leaf inventory -/

lemma foldl_insert_perm :
    ∀ (xs h : List HuffmanNode), List.Perm (xs.foldl MinHeap.insert h) (xs ++ h) := by
  intro xs
  induction xs with
  | nil =>
    intro h
    simp only [List.foldl_nil, List.nil_append]
    exact List.Perm.refl h
  | cons x xs ih =>
    intro h
    simp only [List.foldl_cons, List.cons_append]
    refine (ih (MinHeap.insert h x)).trans ?_
    exact (List.Perm.append_left xs (insert_perm h x)).trans List.perm_middle

lemma leafHeap_perm (freqs : List (Char × Nat)) :
    List.Perm (leafHeap freqs)
      (freqs.enum.map (fun p => HuffmanNode.mk (some p.2.1) p.2.2 .null .null p.1)) := by
  unfold leafHeap
  rw [← List.foldl_map]
  refine (foldl_insert_perm _ []).trans ?_
  rw [List.append_nil]

lemma leafHeap_length (freqs : List (Char × Nat)) :
    (leafHeap freqs).length = freqs.length := by
  rw [(leafHeap_perm freqs).length_eq]
  simp

lemma leafHeap_wf (freqs : List (Char × Nat)) :
    ∀ n ∈ leafHeap freqs, WFTree n := by
  intro n hn
  have := (leafHeap_perm freqs).mem_iff.mp hn
  obtain ⟨p, _, rfl⟩ := List.mem_map.mp this
  exact WFTree.leaf _ _ _

lemma leafHeap_leaves (freqs : List (Char × Nat)) :
    List.Perm ((leafHeap freqs).flatMap leafChars) (freqs.map Prod.fst) := by
  refine (List.Perm.flatMap_right leafChars (leafHeap_perm freqs)).trans ?_
  rw [List.flatMap_map]
  have h1 : ∀ (l : List (Nat × Char × Nat)),
      l.flatMap (fun p => leafChars (HuffmanNode.mk (some p.2.1) p.2.2 .null .null p.1)) =
        l.map (fun p => p.2.1) := by
    intro l
    induction l with
    | nil => rfl
    | cons q l ih =>
      simp only [List.flatMap_cons, List.map_cons]
      rw [show leafChars (HuffmanNode.mk (some q.2.1) q.2.2 .null .null q.1)
          = [q.2.1] from rfl, ih]
      rfl
  rw [h1]
  have h2 : freqs.enum.map (fun p => p.2.1) = freqs.map Prod.fst := by
    rw [show (fun p : Nat × Char × Nat => p.2.1) = (Prod.fst ∘ Prod.snd) from rfl,
      ← List.map_map, List.enum_map_snd]
  rw [h2]

lemma buildHuffmanTree_nil : buildHuffmanTree [] = .null := rfl

/-- For at least two distinct symbols, the built tree is a well-formed
internal merge node whose leaf characters are a permutation of the table
keys. -/
lemma buildHuffmanTree_ge2 (freqs : List (Char × Nat)) (h2 : 2 ≤ freqs.length) :
    WFTree (buildHuffmanTree freqs) ∧ (buildHuffmanTree freqs).char = none ∧
      List.Perm (leafChars (buildHuffmanTree freqs)) (freqs.map Prod.fst) := by
  have hne : freqs.isEmpty = false := by
    cases freqs with
    | nil => simp at h2
    | cons a l => rfl
  have hlen := leafHeap_length freqs
  obtain ⟨root, hrooteq, hrootwf, hrootperm, hrootchar⟩ :=
    mergeLoopF_spec (leafHeap freqs).length (leafHeap freqs) freqs.length
      (by omega) (by omega) (leafHeap_wf freqs)
  have hb : buildHuffmanTree freqs = root := by
    unfold buildHuffmanTree
    rw [hne, if_neg (by omega : ¬ (leafHeap freqs).length = 1), hrooteq]
    rfl
  rw [hb]
  exact ⟨hrootwf, hrootchar (by omega),
    hrootperm.trans (leafHeap_leaves freqs)⟩

/-! ### Codes as root-to-leaf paths -/

/-- On well-formed trees, `traverse` with a non-empty accumulated code is the
relative code list with that accumulator prefixed. -/
lemma traverse_eq_relCodes {t : HuffmanNode} (hwf : WFTree t) :
    ∀ (pre : List Char), pre ≠ [] →
      traverse t pre = (relCodes t).map (fun p => (p.1, pre ++ p.2)) := by
  induction hwf with
  | leaf c f i =>
    intro pre hpre
    have : pre.isEmpty = false := by
      cases pre with
      | nil => exact absurd rfl hpre
      | cons a l => rfl
    simp [traverse, relCodes, this]
  | node f i l r hl hr ihl ihr =>
    intro pre hpre
    simp only [traverse, relCodes, if_neg hl.ne_null, if_neg hr.ne_null,
      ihl (pre ++ ['0']) (by simp), ihr (pre ++ ['1']) (by simp), List.map_append,
      List.map_map]
    congr 1 <;>
      · apply List.map_congr_left
        intro p _
        simp [Function.comp]

/-- On a well-formed internal root, `traverse` from the empty code computes
exactly the relative path codes. -/
lemma traverse_nil_eq_relCodes {f i : Nat} {l r : HuffmanNode}
    (hl : WFTree l) (hr : WFTree r) :
    traverse (.mk none f l r i) [] = relCodes (.mk none f l r i) := by
  simp only [traverse, relCodes, if_neg hl.ne_null, if_neg hr.ne_null, List.nil_append,
    traverse_eq_relCodes hl ['0'] (by simp), traverse_eq_relCodes hr ['1'] (by simp)]
  rfl

/-- The keys of the relative code list are the leaf characters in order. -/
lemma relCodes_keys : ∀ (t : HuffmanNode), (relCodes t).map Prod.fst = leafChars t
  | .null => rfl
  | .mk (some c) _ _ _ _ => rfl
  | .mk none _ l r _ => by
    simp only [relCodes, leafChars, List.map_append, List.map_map]
    rw [show (Prod.fst ∘ fun p : Char × List Char => (p.1, '0' :: p.2)) = Prod.fst from rfl,
      show (Prod.fst ∘ fun p : Char × List Char => (p.1, '1' :: p.2)) = Prod.fst from rfl,
      relCodes_keys l, relCodes_keys r]

/-- Every relative code consists of '0'/'1' characters only. -/
lemma relCodes_bits : ∀ (t : HuffmanNode) (p : Char × List Char), p ∈ relCodes t →
    ∀ c ∈ p.2, c = '0' ∨ c = '1'
  | .null, p, hp => by simp [relCodes] at hp
  | .mk (some ch) _ _ _ _, p, hp => by
    simp only [relCodes, List.mem_singleton] at hp
    subst hp
    intro c hc
    simp at hc
  | .mk none _ l r _, p, hp => by
    simp only [relCodes, List.mem_append, List.mem_map] at hp
    rcases hp with ⟨q, hq, rfl⟩ | ⟨q, hq, rfl⟩ <;>
      · intro c hc
        simp only [List.mem_cons] at hc
        rcases hc with rfl | hc
        · simp
        · exact relCodes_bits _ q hq c hc

/-! ### Decoding walks -/

lemma isShortcut_false_of_wf {t : HuffmanNode} (h : WFTree t) :
    isShortcut t = false := by
  cases h with
  | leaf c f i => rfl
  | node f i l r hl hr => cases hl <;> cases hr <;> rfl

/-- Walking the decoder along a symbol's path code emits that symbol and
resets the walk to the root (Lemma A of the round-trip argument). -/
lemma decodeLoop_code (root : HuffmanNode) :
    ∀ {t : HuffmanNode}, WFTree t → t.char = none →
      ∀ (c : Char) (code : List Char), (c, code) ∈ relCodes t →
      ∀ (rest acc : List Char),
        decodeLoop root (code ++ rest) t acc = decodeLoop root rest root (acc ++ [c]) := by
  intro t hwf
  induction hwf with
  | leaf c f i => intro h; simp [HuffmanNode.char] at h
  | node f i l r hl hr ihl ihr =>
    intro _ c code hmem rest acc
    have hsc := isShortcut_false_of_wf (WFTree.node f i l r hl hr)
    simp only [relCodes, List.mem_append, List.mem_map] at hmem
    rcases hmem with ⟨q, hq, heq⟩ | ⟨q, hq, heq⟩
    · have hc : q.1 = c := congrArg Prod.fst heq
      have hcode : ('0' :: q.2) = code := congrArg Prod.snd heq
      subst hc
      subst hcode
      simp only [List.cons_append, decodeLoop, hsc, Bool.false_eq_true, if_false]
      cases hl with
      | leaf cl f2 i2 =>
        have hq1 : q = (cl, []) := by simpa [relCodes] using hq
        rw [hq1]
        simp [decodeStep, HuffmanNode.left]
      | node f2 i2 l2 r2 hl2 hr2 =>
        simp only [decodeStep, HuffmanNode.left, if_pos rfl]
        exact ihl rfl q.1 q.2 hq rest acc
    · have hc : q.1 = c := congrArg Prod.fst heq
      have hcode : ('1' :: q.2) = code := congrArg Prod.snd heq
      subst hc
      subst hcode
      simp only [List.cons_append, decodeLoop, hsc, Bool.false_eq_true, if_false]
      cases hr with
      | leaf cl f2 i2 =>
        have hq1 : q = (cl, []) := by simpa [relCodes] using hq
        rw [hq1]
        simp [decodeStep, HuffmanNode.right]
      | node f2 i2 l2 r2 hl2 hr2 =>
        simp only [decodeStep, HuffmanNode.right]
        rw [if_neg (by decide : ¬ ('1' : Char) = '0')]
        exact ihr rfl q.1 q.2 hq rest acc

lemma lookup_mem {β : Type} :
    ∀ (m : List (Char × β)) (c : Char) (v : β), m.lookup c = some v → (c, v) ∈ m := by
  intro m
  induction m with
  | nil => intro c v h; simp [List.lookup] at h
  | cons p m ih =>
    intro c v h
    rw [List.lookup_cons] at h
    split at h
    · rename_i hbeq
      have hcp : c = p.1 := by simpa using hbeq
      have hv : p.2 = v := by simpa using h
      subst hcp
      subst hv
      simp
    · exact List.mem_cons_of_mem p (ih c v h)

lemma lookup_isSome_of_mem_keys {β : Type} :
    ∀ (m : List (Char × β)) (c : Char), c ∈ m.map Prod.fst →
      ∃ v, m.lookup c = some v := by
  intro m
  induction m with
  | nil => intro c h; simp at h
  | cons p m ih =>
    intro c h
    rw [List.lookup_cons]
    by_cases hc : c = p.1
    · exact ⟨p.2, by simp [hc]⟩
    · have h' : c = p.1 ∨ c ∈ m.map Prod.fst := by
        rw [List.map_cons, List.mem_cons] at h
        exact h
      rcases h' with h' | h'
      · exact absurd h' hc
      · obtain ⟨v, hv⟩ := ih c h'
        have hbf : (c == p.1) = false := by simpa using hc
        exact ⟨v, by simp [hbf, hv]⟩

/-- Decoding the concatenation of the looked-up codes of a symbol sequence
recovers exactly that sequence. -/
lemma decodeLoop_flatMap {root : HuffmanNode}
    (hroot : WFTree root) (hrootc : root.char = none)
    (codeMap : List (Char × List Char)) (hcm : codeMap = relCodes root) :
    ∀ (text acc : List Char),
      (∀ ch ∈ text, ch ∈ codeMap.map Prod.fst) →
      decodeLoop root (text.flatMap (fun ch => (codeMap.lookup ch).getD [])) root acc =
        some (acc ++ text) := by
  subst hcm
  intro text
  induction text with
  | nil => intro acc _; simp [decodeLoop]
  | cons ch text ih =>
    intro acc hmem
    obtain ⟨code, hcode⟩ := lookup_isSome_of_mem_keys _ ch (hmem ch (by simp))
    simp only [List.flatMap_cons, hcode, Option.getD_some]
    rw [decodeLoop_code root hroot hrootc ch code (lookup_mem _ _ _ hcode)
      (text.flatMap (fun ch => ((relCodes root).lookup ch).getD [])) acc]
    rw [ih (acc ++ [ch]) (fun x hx => hmem x (by simp [hx]))]
    simp

/-- On the synthetic single-symbol wrapper the decoder emits the symbol once
per bit without descending. -/
lemma decodeLoop_wrapper (f i f2 i2 : Nat) (c : Char) :
    ∀ (bits acc : List Char),
      decodeLoop (.mk none f (.mk (some c) f2 .null .null i2) .null i) bits
        (.mk none f (.mk (some c) f2 .null .null i2) .null i) acc =
      some (acc ++ List.replicate bits.length c) := by
  intro bits
  induction bits with
  | nil => intro acc; simp [decodeLoop]
  | cons b bits ih =>
    intro acc
    simp only [decodeLoop, show isShortcut
      (.mk none f (.mk (some c) f2 .null .null i2) .null i) = true from rfl, if_true,
      shortcutChars, HuffmanNode.left]
    rw [ih (acc ++ [c])]
    simp [List.replicate_succ, List.append_assoc]

/-! ### Bit strings and byte packing -/

lemma bitsToNat_append (bs : List Char) (c : Char) :
    bitsToNat (bs ++ [c]) = 2 * bitsToNat bs + (if c = '1' then 1 else 0) := by
  simp [bitsToNat, List.foldl_append]

lemma bitsToNat_lt (bs : List Char) : bitsToNat bs < 2 ^ bs.length := by
  induction bs using List.reverseRecOn with
  | nil => simp [bitsToNat]
  | append_singleton bs c ih =>
    rw [bitsToNat_append]
    simp only [List.length_append, List.length_cons, List.length_nil, Nat.zero_add]
    have h2 : 2 ^ (bs.length + 1) = 2 * 2 ^ bs.length := by ring
    split <;> omega

lemma natToBitsF_correct : ∀ (fuel n : Nat), n ≤ fuel →
    bitsToNat (natToBitsF fuel n) = n := by
  intro fuel
  induction fuel with
  | zero =>
    intro n h
    have : n = 0 := by omega
    subst this
    rfl
  | succ fuel ih =>
    intro n h
    by_cases h0 : n = 0
    · subst h0; rfl
    · simp only [natToBitsF, if_neg h0, bitsToNat_append, ih (n / 2) (by omega)]
      by_cases hm : n % 2 = 1
      · rw [if_pos hm]
        simp
        omega
      · rw [if_neg hm]
        rw [if_neg (by decide : ¬ ('0' : Char) = '1')]
        omega

lemma natToBits_correct (n : Nat) : bitsToNat (natToBits n) = n :=
  natToBitsF_correct n n le_rfl

lemma natToBitsF_bits : ∀ (fuel n : Nat), ∀ c ∈ natToBitsF fuel n, c = '0' ∨ c = '1' := by
  intro fuel
  induction fuel with
  | zero => intro n c hc; simp [natToBitsF] at hc
  | succ fuel ih =>
    intro n c hc
    by_cases h0 : n = 0
    · simp [natToBitsF, h0] at hc
    · simp only [natToBitsF, if_neg h0, List.mem_append, List.mem_singleton] at hc
      rcases hc with hc | hc
      · exact ih (n / 2) c hc
      · subst hc
        split <;> simp

lemma natToBitsF_length : ∀ (fuel n k : Nat), n ≤ fuel → n < 2 ^ k →
    (natToBitsF fuel n).length ≤ k := by
  intro fuel
  induction fuel with
  | zero =>
    intro n k h _
    have : n = 0 := by omega
    subst this
    simp [natToBitsF]
  | succ fuel ih =>
    intro n k h hk
    by_cases h0 : n = 0
    · simp [natToBitsF, h0]
    · have hk1 : 1 ≤ k := by
        by_contra hh
        have hk0 : k = 0 := by omega
        rw [hk0, pow_zero] at hk
        omega
      simp only [natToBitsF, if_neg h0, List.length_append, List.length_cons,
        List.length_nil]
      have hsplit : 2 ^ k = 2 * 2 ^ (k - 1) := by
        conv_lhs => rw [show k = (k - 1) + 1 by omega]
        ring
      have h2 : n / 2 < 2 ^ (k - 1) := by omega
      have := ih (n / 2) (k - 1) (by omega) h2
      omega

lemma byteToBits_length (b : Nat) (hb : b < 256) : (byteToBits b).length = 8 := by
  unfold byteToBits
  by_cases h0 : b = 0
  · simp [h0]
  · simp only [if_neg h0, List.length_append, List.length_replicate]
    have hl := natToBitsF_length b b 8 le_rfl (by omega)
    simp only [natToBits]
    omega

lemma bitsToNat_replicate_zero (k : Nat) (s : List Char) :
    bitsToNat (List.replicate k '0' ++ s) = bitsToNat s := by
  induction k with
  | zero => rfl
  | succ k ih =>
    rw [List.replicate_succ, List.cons_append]
    show List.foldl _ (2 * 0 + if ('0' : Char) = '1' then 1 else 0) _ = _
    rw [if_neg (by decide : ¬ ('0' : Char) = '1')]
    exact ih

lemma bitsToNat_byteToBits (b : Nat) : bitsToNat (byteToBits b) = b := by
  unfold byteToBits
  by_cases h0 : b = 0
  · simp [h0, bitsToNat_replicate_zero]
    rfl
  · simp only [if_neg h0, bitsToNat_replicate_zero]
    exact natToBits_correct b

lemma byteToBits_bits (b : Nat) : ∀ c ∈ byteToBits b, c = '0' ∨ c = '1' := by
  intro c hc
  unfold byteToBits at hc
  simp only [List.mem_append, List.mem_replicate] at hc
  rcases hc with hc | hc
  · exact Or.inl hc.2
  · by_cases h0 : b = 0
    · rw [h0] at hc
      simp at hc
      exact Or.inl hc
    · rw [if_neg h0] at hc
      exact natToBitsF_bits b b c hc

lemma bitsToNat_inj : ∀ (n : Nat) (bs1 bs2 : List Char),
    bs1.length = n → bs2.length = n →
    (∀ c ∈ bs1, c = '0' ∨ c = '1') → (∀ c ∈ bs2, c = '0' ∨ c = '1') →
    bitsToNat bs1 = bitsToNat bs2 → bs1 = bs2 := by
  intro n
  induction n with
  | zero =>
    intro bs1 bs2 h1 h2 _ _ _
    rw [List.eq_nil_of_length_eq_zero h1, List.eq_nil_of_length_eq_zero h2]
  | succ n ih =>
    intro bs1 bs2 h1 h2 hb1 hb2 hv
    rcases List.eq_nil_or_concat bs1 with rfl | ⟨t1, c1, rfl⟩
    · simp at h1
    rcases List.eq_nil_or_concat bs2 with rfl | ⟨t2, c2, rfl⟩
    · simp at h2
    simp only [List.concat_eq_append] at h1 h2 hb1 hb2 hv ⊢
    rw [bitsToNat_append, bitsToNat_append] at hv
    have hc1 : c1 = '0' ∨ c1 = '1' := hb1 c1 (by simp)
    have hc2 : c2 = '0' ∨ c2 = '1' := hb2 c2 (by simp)
    have hcc : c1 = c2 ∧ bitsToNat t1 = bitsToNat t2 := by
      rcases hc1 with rfl | rfl <;> rcases hc2 with rfl | rfl <;> simp at hv <;>
        first
          | exact ⟨rfl, by omega⟩
          | (exfalso; omega)
    have ht : t1 = t2 :=
      ih t1 t2 (by simp at h1; omega) (by simp at h2; omega)
        (fun c hc => hb1 c (by simp [hc])) (fun c hc => hb2 c (by simp [hc])) hcc.2
    rw [ht, hcc.1]

/-- Unpacking the bytes produced by the bit packer recovers the padded bit
string exactly (for inputs of byte-aligned length over '0'/'1'). -/
lemma unpack_pack : ∀ (n : Nat) (bs : List Char), bs.length = n → n % 8 = 0 →
    (∀ c ∈ bs, c = '0' ∨ c = '1') →
    (packBytes bs).flatMap byteToBits = bs := by
  intro n
  induction n using Nat.strong_induction_on with
  | _ n ih =>
    intro bs hlen hmod hbits
    rcases bs with _ | ⟨b0, _ | ⟨b1, _ | ⟨b2, _ | ⟨b3, _ | ⟨b4, _ | ⟨b5, _ |
      ⟨b6, _ | ⟨b7, rest⟩⟩⟩⟩⟩⟩⟩⟩ <;>
      (try (exfalso; subst hlen; simp at hmod; done))
    · rfl
    · -- a full 8-bit chunk followed by the rest
      have hn : n = rest.length + 8 := by
        simp only [List.length_cons] at hlen
        omega
      simp only [packBytes, List.flatMap_cons]
      have hchunkbits : ∀ c ∈ [b0, b1, b2, b3, b4, b5, b6, b7], c = '0' ∨ c = '1' := by
        intro c hc
        apply hbits
        simp only [List.mem_cons] at hc ⊢
        tauto
      have hchunk : byteToBits (bitsToNat [b0, b1, b2, b3, b4, b5, b6, b7]) =
          [b0, b1, b2, b3, b4, b5, b6, b7] := by
        apply bitsToNat_inj 8
        · exact byteToBits_length _ (by
            have := bitsToNat_lt [b0, b1, b2, b3, b4, b5, b6, b7]
            simpa using this)
        · rfl
        · exact byteToBits_bits _
        · exact hchunkbits
        · exact bitsToNat_byteToBits _
      rw [hchunk]
      have hrest : (packBytes rest).flatMap byteToBits = rest := by
        refine ih (n - 8) (by omega) rest (by omega) (by omega) ?_
        intro c hc
        apply hbits
        simp only [List.mem_cons] at hc ⊢
        tauto
      rw [hrest]
      rfl

/-! ### The frequency counter -/

lemma bumpFreq_keys_mem : ∀ (m : List (Char × Nat)) (c x : Char),
    x ∈ (bumpFreq m c).map Prod.fst ↔ x ∈ m.map Prod.fst ∨ x = c := by
  intro m
  induction m with
  | nil => intro c x; simp [bumpFreq]
  | cons p m ih =>
    intro c x
    obtain ⟨k, v⟩ := p
    by_cases hc : k = c
    · subst hc
      have hb : bumpFreq ((k, v) :: m) k = (k, v + 1) :: m := by simp [bumpFreq]
      rw [hb]
      simp only [List.map_cons, List.mem_cons]
      tauto
    · have hb : bumpFreq ((k, v) :: m) c = (k, v) :: bumpFreq m c := by
        simp [bumpFreq, hc]
      rw [hb]
      simp only [List.map_cons, List.mem_cons, ih c x]
      tauto

lemma calcFreq_mem (text : List Char) (x : Char) :
    x ∈ (calculateFrequencies text).map Prod.fst ↔ x ∈ text := by
  have H : ∀ (m : List (Char × Nat)),
      x ∈ (text.foldl bumpFreq m).map Prod.fst ↔ x ∈ m.map Prod.fst ∨ x ∈ text := by
    induction text with
    | nil => intro m; simp
    | cons ch text ih =>
      intro m
      simp only [List.foldl_cons, ih (bumpFreq m ch), bumpFreq_keys_mem, List.mem_cons]
      tauto
  have h0 := H []
  simpa [calculateFrequencies] using h0

/-! ### Unfolding `compress` -/

lemma compress_tree (text : List Char) (h : text.isEmpty = false) :
    (compress text).tree = buildHuffmanTree (calculateFrequencies text) := by
  simp [compress, h]

lemma compress_freq (text : List Char) (h : text.isEmpty = false) :
    (compress text).frequencyMap = calculateFrequencies text := by
  simp [compress, h]

lemma compress_codeMap (text : List Char) (h : text.isEmpty = false) :
    (compress text).codeMap = generateCodes (buildHuffmanTree (calculateFrequencies text)) := by
  simp [compress, h]

lemma compress_padding (text : List Char) (h : text.isEmpty = false) :
    (compress text).paddingBits = (8 - (encodedBits text).length % 8) % 8 := by
  simp [compress, h, encodedBits]

lemma compress_data (text : List Char) (h : text.isEmpty = false) :
    (compress text).compressedData =
      packBytes (encodedBits text ++
        List.replicate ((8 - (encodedBits text).length % 8) % 8) '0') := by
  simp [compress, h, encodedBits]

/-! ### The round trip -/

lemma WFTree.internal_shape {t : HuffmanNode} (h : WFTree t) (hc : t.char = none) :
    ∃ f i l r, t = .mk none f l r i ∧ WFTree l ∧ WFTree r := by
  cases h with
  | leaf c f i => simp [HuffmanNode.char] at hc
  | node f i l r hl hr => exact ⟨f, i, l, r, rfl, hl, hr⟩

lemma relCodes_node_snd_ne_nil {f i : Nat} {l r : HuffmanNode} (p : Char × List Char)
    (hp : p ∈ relCodes (.mk none f l r i)) : p.2 ≠ [] := by
  simp only [relCodes, List.mem_append, List.mem_map] at hp
  rcases hp with ⟨q, _, rfl⟩ | ⟨q, _, rfl⟩ <;> simp

lemma flatMap_lookup_bits (codeMap : List (Char × List Char))
    (h : ∀ p ∈ codeMap, ∀ c ∈ p.2, c = '0' ∨ c = '1') (text : List Char) :
    ∀ c ∈ text.flatMap (fun ch => (codeMap.lookup ch).getD []), c = '0' ∨ c = '1' := by
  intro c hc
  simp only [List.mem_flatMap] at hc
  obtain ⟨ch, _, hc⟩ := hc
  cases hcode : codeMap.lookup ch with
  | none => rw [hcode] at hc; simp at hc
  | some code =>
    rw [hcode] at hc
    exact h (ch, code) (lookup_mem _ _ _ hcode) c hc

/-- Stripping the recorded padding from the padded bit string recovers the
encoded bits. -/
lemma pad_strip (enc : List Char) (p : Nat) :
    (if p > 0 then (enc ++ List.replicate p '0').take
        ((enc ++ List.replicate p '0').length - p)
      else enc ++ List.replicate p '0') = enc := by
  by_cases hp : p > 0
  · rw [if_pos hp]
    have hlen : (enc ++ List.replicate p '0').length - p = enc.length := by simp
    rw [hlen, List.take_left]
  · rw [if_neg hp]
    have : p = 0 := by omega
    simp [this]

lemma buildHuffmanTree_single (c : Char) (f : Nat) :
    buildHuffmanTree [(c, f)] =
      .mk none f (.mk (some c) f .null .null 0) .null 1 := rfl

lemma generateCodes_single (c : Char) (f : Nat) :
    generateCodes (.mk none f (.mk (some c) f .null .null 0) .null 1) =
      [(c, ['0'])] := rfl

lemma flatMap_single_code (c : Char) :
    ∀ (S : List Char), (∀ x ∈ S, x = c) →
      S.flatMap (fun ch => (List.lookup ch [(c, ['0'])]).getD []) =
        List.replicate S.length '0' := by
  intro S
  induction S with
  | nil => intro _; rfl
  | cons x S ih =>
    intro h
    have hx : x = c := h x (by simp)
    simp only [List.flatMap_cons, hx, List.length_cons, List.replicate_succ]
    have hlk : List.lookup c [(c, ['0'])] = some ['0'] := by simp
    rw [hlk, ih (fun y hy => h y (by simp [hy]))]
    rfl
/-- Decompressing the packed, padded encoding of a non-empty bit string with
a non-null tree runs the decoding walk on exactly the encoded bits. -/
lemma decompress_packed (c0 : Option Char) (f i : Nat) (l r : HuffmanNode)
    (enc : List Char) (hbits : ∀ c ∈ enc, c = '0' ∨ c = '1') (hne : enc ≠ []) :
    decompress (packBytes (enc ++ List.replicate ((8 - enc.length % 8) % 8) '0'))
      (.mk c0 f l r i) ((8 - enc.length % 8) % 8) =
    (decodeLoop (.mk c0 f l r i) enc (.mk c0 f l r i) []).map
      (fun s => { decompressedText := s, success := true, error := none }) := by
  have hpadbits : ∀ ch ∈ enc ++ List.replicate ((8 - enc.length % 8) % 8) '0',
      ch = '0' ∨ ch = '1' := by
    intro ch hch
    simp only [List.mem_append, List.mem_replicate] at hch
    rcases hch with h | h
    · exact hbits ch h
    · exact Or.inl h.2
  have hmod : (enc ++ List.replicate ((8 - enc.length % 8) % 8) '0').length % 8 = 0 := by
    simp only [List.length_append, List.length_replicate]
    omega
  have hunpack := unpack_pack _ _ rfl hmod hpadbits
  have hdne : packBytes (enc ++ List.replicate ((8 - enc.length % 8) % 8) '0') ≠ [] := by
    intro hnil
    rw [hnil] at hunpack
    simp only [List.flatMap_nil] at hunpack
    have := congrArg List.length hunpack
    simp only [List.length_nil, List.length_append, List.length_replicate] at this
    exact hne (List.eq_nil_of_length_eq_zero (by omega))
  have hdne' : (packBytes (enc ++ List.replicate ((8 - enc.length % 8) % 8) '0')).isEmpty
      = false := by
    cases hpk : packBytes (enc ++ List.replicate ((8 - enc.length % 8) % 8) '0') with
    | nil => exact absurd hpk hdne
    | cons b bs => rfl
  simp only [decompress, hdne', Bool.false_eq_true, if_false, hunpack]
  rw [pad_strip enc ((8 - enc.length % 8) % 8)]

/-- The central round-trip fact: decompressing a compression result with its
own tree and padding reproduces the input exactly, with `success = true` and
no error. -/
lemma roundtrip_core (S : List Char) :
    decompress (compress S).compressedData (compress S).tree (compress S).paddingBits =
      some { decompressedText := S, success := true, error := none } := by
  by_cases hS : S.isEmpty
  · have : S = [] := by
      cases S with
      | nil => rfl
      | cons a l => simp at hS
    subst this
    rfl
  · have hS' : S.isEmpty = false := by simpa using hS
    have hSne : S ≠ [] := by
      cases S with
      | nil => simp at hS'
      | cons a l => simp
    obtain ⟨s0, S', rfl⟩ := List.exists_cons_of_ne_nil hSne
    rw [compress_tree _ hS', compress_padding _ hS', compress_data _ hS']
    have hkey0 : s0 ∈ (calculateFrequencies (s0 :: S')).map Prod.fst :=
      (calcFreq_mem _ s0).mpr (by simp)
    have hfne : calculateFrequencies (s0 :: S') ≠ [] := by
      intro hnil
      rw [hnil] at hkey0
      simp at hkey0
    by_cases hone : (calculateFrequencies (s0 :: S')).length = 1
    · -- exactly one distinct symbol: the synthetic wrapper tree
      obtain ⟨p, rest, hfr⟩ := List.exists_cons_of_ne_nil hfne
      have hrest : rest = [] := by
        rw [hfr] at hone
        simp only [List.length_cons] at hone
        exact List.eq_nil_of_length_eq_zero (by omega)
      subst hrest
      obtain ⟨c, f⟩ := p
      have hallc : ∀ x ∈ s0 :: S', x = c := by
        intro x hx
        have hx' := (calcFreq_mem (s0 :: S') x).mpr hx
        rw [hfr] at hx'
        simpa using hx'
      have henc : encodedBits (s0 :: S') = List.replicate (s0 :: S').length '0' := by
        unfold encodedBits
        rw [hfr, buildHuffmanTree_single, generateCodes_single]
        exact flatMap_single_code c _ hallc
      rw [hfr, buildHuffmanTree_single, henc]
      rw [decompress_packed (none) f 1 (.mk (some c) f .null .null 0) .null
        (List.replicate (s0 :: S').length '0')
        (by intro ch hch; exact Or.inl (List.eq_of_mem_replicate hch))
        (by simp)]
      rw [decodeLoop_wrapper f 1 f 0 c (List.replicate (s0 :: S').length '0') []]
      simp only [List.length_replicate, List.nil_append, Option.map_some]
      have hrepl : s0 :: S' = List.replicate (s0 :: S').length c :=
        List.eq_replicate_of_mem hallc
      rw [← hrepl]
      rfl
    · -- at least two distinct symbols: a full merge tree
      have h2 : 2 ≤ (calculateFrequencies (s0 :: S')).length := by
        have h1 : 0 < (calculateFrequencies (s0 :: S')).length :=
          List.length_pos.mpr hfne
        omega
      obtain ⟨hwf, hchar, hperm⟩ := buildHuffmanTree_ge2 _ h2
      obtain ⟨f, i, l, r, heq, hl, hr⟩ := hwf.internal_shape hchar
      have hgen : generateCodes (buildHuffmanTree (calculateFrequencies (s0 :: S'))) =
          relCodes (buildHuffmanTree (calculateFrequencies (s0 :: S'))) := by
        rw [heq]
        exact traverse_nil_eq_relCodes hl hr
      have hkeys : ∀ ch ∈ s0 :: S',
          ch ∈ (relCodes (buildHuffmanTree (calculateFrequencies (s0 :: S')))).map
            Prod.fst := by
        intro ch hch
        rw [relCodes_keys]
        exact hperm.mem_iff.mpr ((calcFreq_mem _ ch).mpr hch)
      have henc : encodedBits (s0 :: S') =
          (s0 :: S').flatMap (fun ch =>
            ((relCodes (buildHuffmanTree (calculateFrequencies (s0 :: S')))).lookup
              ch).getD []) := by
        unfold encodedBits
        rw [hgen]
      have hencbits : ∀ c ∈ encodedBits (s0 :: S'), c = '0' ∨ c = '1' := by
        rw [henc]
        refine flatMap_lookup_bits _ ?_ _
        intro q hq c hc
        exact relCodes_bits _ q hq c hc
      have hencne : encodedBits (s0 :: S') ≠ [] := by
        rw [henc]
        obtain ⟨code, hcode⟩ :=
          lookup_isSome_of_mem_keys _ s0 (hkeys s0 (by simp))
        have hcne : code ≠ [] := by
          have hmem := lookup_mem _ _ _ hcode
          rw [heq] at hmem
          exact relCodes_node_snd_ne_nil (s0, code) hmem
        simp only [List.flatMap_cons, hcode, Option.getD_some]
        intro hnil
        rw [List.append_eq_nil] at hnil
        exact hcne hnil.1
      rw [heq]
      rw [show buildHuffmanTree (calculateFrequencies (s0 :: S')) =
          HuffmanNode.mk none f l r i from heq] at henc hkeys
      rw [decompress_packed none f i l r (encodedBits (s0 :: S')) hencbits hencne]
      rw [henc]
      rw [decodeLoop_flatMap (WFTree.node f i l r hl hr) rfl _ rfl (s0 :: S') [] hkeys]
      rfl

/-! ### The min-heap invariant -/

lemma freqAt_set_self (l : List HuffmanNode) (i : Nat) (a : HuffmanNode)
    (h : i < l.length) : freqAt (l.set i a) i = a.freq := by
  simp [freqAt, List.getD, List.getElem?_set_self', h]

lemma freqAt_set_ne (l : List HuffmanNode) (i j : Nat) (a : HuffmanNode)
    (h : i ≠ j) : freqAt (l.set i a) j = freqAt l j := by
  simp [freqAt, List.getD, List.getElem?_set_ne h]

lemma freqAt_heapSwap (l : List HuffmanNode) (p i j : Nat)
    (hp : p < l.length) (hi : i < l.length) :
    freqAt (heapSwap l p i) j =
      if j = i then freqAt l p
      else if j = p then freqAt l i
      else freqAt l j := by
  unfold heapSwap
  by_cases hji : j = i
  · subst hji
    rw [if_pos rfl, freqAt_set_self _ _ _ (by simpa using hi)]
    rfl
  · rw [if_neg hji, freqAt_set_ne _ _ _ _ (fun he => hji he.symm)]
    by_cases hjp : j = p
    · subst hjp
      rw [if_pos rfl, freqAt_set_self _ _ _ hp]
      rfl
    · rw [if_neg hjp, freqAt_set_ne _ _ _ _ (fun he => hjp he.symm)]

lemma freqAt_append_lt (l l2 : List HuffmanNode) (k : Nat) (h : k < l.length) :
    freqAt (l ++ l2) k = freqAt l k := by
  simp [freqAt, List.getD, List.getElem?_append, h]

lemma freqAt_dropLast (l : List HuffmanNode) (k : Nat) (h : k < l.length - 1) :
    freqAt (l.dropLast) k = freqAt l k := by
  simp only [freqAt, List.getD, List.get?_eq_getElem?]
  rw [List.getElem?_eq_getElem (by simp; omega), List.getElem?_eq_getElem (by omega)]
  simp [List.getElem_dropLast]

/-- `bubbleUp` restores the heap property when every parent edge holds except
possibly the one into `i`, and the children of `i` already dominate `i`'s
parent. -/
lemma bubbleUpF_isHeap :
    ∀ (fuel : Nat) (l : List HuffmanNode) (i : Nat), i < fuel → i < l.length →
      (∀ j, 0 < j → j < l.length → j ≠ i → freqAt l ((j - 1) / 2) ≤ freqAt l j) →
      (0 < i → ∀ j, j < l.length → 0 < j → (j - 1) / 2 = i →
        freqAt l ((i - 1) / 2) ≤ freqAt l j) →
      IsHeap (MinHeap.bubbleUpF fuel l i) := by
  intro fuel
  induction fuel with
  | zero => intro l i hif; omega
  | succ fuel ih =>
    intro l i hif hil hA hB
    simp only [MinHeap.bubbleUpF]
    by_cases hi0 : i = 0
    · rw [if_pos hi0]
      intro j hj0 hjl
      exact hA j hj0 hjl (by omega)
    · rw [if_neg hi0]
      by_cases hle : freqAt l ((i - 1) / 2) ≤ freqAt l i
      · rw [if_pos hle]
        intro j hj0 hjl
        by_cases hji : j = i
        · subst hji; exact hle
        · exact hA j hj0 hjl hji
      · rw [if_neg hle]
        have hp : (i - 1) / 2 < i := by omega
        have hplen : (i - 1) / 2 < l.length := by omega
        have hswap : ∀ j, freqAt (heapSwap l ((i - 1) / 2) i) j =
            if j = i then freqAt l ((i - 1) / 2)
            else if j = (i - 1) / 2 then freqAt l i
            else freqAt l j := fun j => freqAt_heapSwap l _ i j hplen hil
        apply ih (heapSwap l ((i - 1) / 2) i) ((i - 1) / 2) (by omega)
          (by rw [heapSwap_length]; omega)
        · -- all edges except possibly the one into the parent index hold
          intro j hj0 hjl hjp
          rw [heapSwap_length] at hjl
          rw [hswap j, hswap ((j - 1) / 2)]
          by_cases hji : j = i
          · -- the swapped edge itself now holds
            subst hji
            rw [if_pos rfl, if_neg (by omega), if_pos rfl]
            omega
          · rw [if_neg hji]
            by_cases hchildi : (j - 1) / 2 = i
            · -- children of the old position still dominate
              rw [if_neg hjp, hchildi, if_pos rfl]
              exact hB (by omega) j hjl hj0 hchildi
            · by_cases hchildp : (j - 1) / 2 = (i - 1) / 2
              · -- sibling subtree of the moved node
                rw [if_neg hjp, hchildp, if_neg (by omega), if_pos rfl]
                have := hA j hj0 hjl hji
                rw [hchildp] at this
                omega
              · rw [if_neg hjp, if_neg hchildi, if_neg hchildp]
                exact hA j hj0 hjl hji
        · -- grandparent condition at the new index
          intro hp0 j hjl hj0 hjchild
          rw [heapSwap_length] at hjl
          rw [hswap j, hswap (((i - 1) / 2 - 1) / 2)]
          have hpp : ((i - 1) / 2 - 1) / 2 < (i - 1) / 2 := by omega
          rw [if_neg (by omega), if_neg (by omega)]
          by_cases hji : j = i
          · rw [if_pos hji]
            exact hA ((i - 1) / 2) (by omega) hplen (by omega)
          · rw [if_neg hji]
            by_cases hjp : j = (i - 1) / 2
            · omega
            · rw [if_neg hjp]
              have h1 := hA ((i - 1) / 2) (by omega) hplen (by omega)
              have h2 := hA j hj0 hjl hji
              rw [hjchild] at h2
              omega

lemma downTarget_eq_self (l : List HuffmanNode) (i : Nat)
    (h : MinHeap.downTarget l i = i) :
    (2 * i + 1 < l.length → freqAt l i ≤ freqAt l (2 * i + 1)) ∧
    (2 * i + 2 < l.length → freqAt l i ≤ freqAt l (2 * i + 2)) := by
  unfold MinHeap.downTarget MinHeap.downS1 at h
  by_cases c1 : 2 * i + 1 < l.length ∧ freqAt l (2 * i + 1) < freqAt l i
  · rw [if_pos c1] at h
    split at h <;> omega
  · rw [if_neg c1] at h
    split at h <;> [omega; (constructor <;> intro <;> omega)]

lemma downTarget_spec (l : List HuffmanNode) (i : Nat)
    (h : MinHeap.downTarget l i ≠ i) :
    (MinHeap.downTarget l i - 1) / 2 = i ∧
    freqAt l (MinHeap.downTarget l i) < freqAt l i ∧
    ∀ j, j < l.length → (j - 1) / 2 = i → 0 < j →
      freqAt l (MinHeap.downTarget l i) ≤ freqAt l j := by
  unfold MinHeap.downTarget MinHeap.downS1 at h ⊢
  by_cases c1 : 2 * i + 1 < l.length ∧ freqAt l (2 * i + 1) < freqAt l i
  · rw [if_pos c1] at h ⊢
    by_cases c2 : 2 * i + 2 < l.length ∧ freqAt l (2 * i + 2) < freqAt l (2 * i + 1)
    · rw [if_pos c2] at h ⊢
      refine ⟨by omega, by omega, ?_⟩
      intro j hjl hjc hj0
      have hj : j = 2 * i + 1 ∨ j = 2 * i + 2 := by omega
      rcases hj with rfl | rfl <;> omega
    · rw [if_neg c2] at h ⊢
      refine ⟨by omega, c1.2, ?_⟩
      intro j hjl hjc hj0
      have hj : j = 2 * i + 1 ∨ j = 2 * i + 2 := by omega
      rcases hj with rfl | rfl <;> omega
  · rw [if_neg c1] at h ⊢
    by_cases c2 : 2 * i + 2 < l.length ∧ freqAt l (2 * i + 2) < freqAt l i
    · rw [if_pos c2] at h ⊢
      refine ⟨by omega, c2.2, ?_⟩
      intro j hjl hjc hj0
      have hj : j = 2 * i + 1 ∨ j = 2 * i + 2 := by omega
      rcases hj with rfl | rfl <;> omega
    · rw [if_neg c2] at h
      exact absurd rfl h

/-- `bubbleDown` restores the heap property when every parent edge holds
except possibly those leaving `i`, and `i`'s children already dominate `i`'s
parent. -/
lemma bubbleDownF_isHeap :
    ∀ (fuel : Nat) (l : List HuffmanNode) (i : Nat), l.length - i ≤ fuel →
      (∀ j, 0 < j → j < l.length → (j - 1) / 2 ≠ i → freqAt l ((j - 1) / 2) ≤ freqAt l j) →
      (0 < i → ∀ j, j < l.length → 0 < j → (j - 1) / 2 = i →
        freqAt l ((i - 1) / 2) ≤ freqAt l j) →
      IsHeap (MinHeap.bubbleDownF fuel l i) := by
  intro fuel
  induction fuel with
  | zero =>
    intro l i hfuel hA hB
    simp only [MinHeap.bubbleDownF]
    intro j hj0 hjl
    exact hA j hj0 hjl (by omega)
  | succ fuel ih =>
    intro l i hfuel hA hB
    simp only [MinHeap.bubbleDownF]
    by_cases hsi : MinHeap.downTarget l i = i
    · rw [if_pos hsi]
      intro j hj0 hjl
      by_cases hpj : (j - 1) / 2 = i
      · obtain ⟨h1, h2⟩ := downTarget_eq_self l i hsi
        have hj : j = 2 * i + 1 ∨ j = 2 * i + 2 := by omega
        rw [hpj]
        rcases hj with rfl | rfl
        · exact h1 hjl
        · exact h2 hjl
      · exact hA j hj0 hjl hpj
    · rw [if_neg hsi]
      obtain ⟨hlt, hslen⟩ := downTarget_facts l i hsi
      obtain ⟨hparent, hstrict, hmin⟩ := downTarget_spec l i hsi
      have hswap : ∀ j, freqAt (heapSwap l (MinHeap.downTarget l i) i) j =
          if j = i then freqAt l (MinHeap.downTarget l i)
          else if j = MinHeap.downTarget l i then freqAt l i
          else freqAt l j :=
        fun j => freqAt_heapSwap l _ i j hslen (by omega)
      apply ih (heapSwap l (MinHeap.downTarget l i) i) (MinHeap.downTarget l i)
        (by rw [heapSwap_length]; omega)
      · intro j hj0 hjl hpj
        rw [heapSwap_length] at hjl
        rw [hswap j, hswap ((j - 1) / 2)]
        by_cases hji : j = i
        · rw [if_pos hji]
          rw [if_neg (by omega), if_neg (by omega)]
          rw [hji]
          exact hB (by omega) (MinHeap.downTarget l i) (by omega) (by omega) hparent
        · rw [if_neg hji]
          by_cases hchildi : (j - 1) / 2 = i
          · by_cases hjs : j = MinHeap.downTarget l i
            · rw [if_pos hjs, hchildi, if_pos rfl]
              omega
            · rw [if_neg hjs, hchildi, if_pos rfl]
              exact hmin j hjl hchildi hj0
          · by_cases hjs : j = MinHeap.downTarget l i
            · exfalso; omega
            · rw [if_neg hjs, if_neg hchildi, if_neg (by omega)]
              exact hA j hj0 hjl hchildi
      · intro hs0 j hjl hj0 hjc
        rw [heapSwap_length] at hjl
        rw [hswap j, hswap ((MinHeap.downTarget l i - 1) / 2)]
        rw [if_pos hparent]
        rw [if_neg (by omega), if_neg (by omega)]
        have h3 := hA j hj0 hjl (by omega)
        rw [hjc] at h3
        exact h3

lemma insert_isHeap (l : List HuffmanNode) (hh : IsHeap l) (n : HuffmanNode) :
    IsHeap (MinHeap.insert l n) := by
  unfold MinHeap.insert MinHeap.bubbleUp
  apply bubbleUpF_isHeap (l.length + 1) (l ++ [n]) l.length (by omega) (by simp)
  · intro j hj0 hjl hji
    have hjlen : j < l.length := by
      simp only [List.length_append, List.length_cons, List.length_nil] at hjl
      omega
    rw [freqAt_append_lt _ _ _ hjlen, freqAt_append_lt _ _ _ (by omega)]
    exact hh j hj0 hjlen
  · intro h0 j hjl hj0 hjc
    exfalso
    simp only [List.length_append, List.length_cons, List.length_nil] at hjl
    omega

lemma extractMin_isHeap (l : List HuffmanNode) (hh : IsHeap l) :
    IsHeap (MinHeap.extractMin l).2 := by
  rcases l with _ | ⟨x, _ | ⟨y, rest⟩⟩
  · intro j hj0 hjl; simp [MinHeap.extractMin] at hjl
  · intro j hj0 hjl; simp [MinHeap.extractMin] at hjl
  · show IsHeap (MinHeap.bubbleDown _ 0)
    unfold MinHeap.bubbleDown
    apply bubbleDownF_isHeap _ _ 0 (by omega)
    · intro j hj0 hjl hpj
      have hAt : ∀ k, 0 < k →
          k < (((x :: y :: rest).dropLast).set 0 ((y :: rest).getLast (by simp))).length →
          freqAt (((x :: y :: rest).dropLast).set 0 ((y :: rest).getLast (by simp))) k =
            freqAt (x :: y :: rest) k := by
        intro k hk0 hkl
        simp only [List.length_set, List.length_dropLast, List.length_cons] at hkl
        rw [freqAt_set_ne _ _ _ _ (by omega),
          freqAt_dropLast _ _ (by simp only [List.length_cons]; omega)]
      rw [hAt j hj0 hjl, hAt ((j - 1) / 2) (by omega)
        (by simp only [List.length_set, List.length_dropLast, List.length_cons] at hjl ⊢; omega)]
      refine hh j hj0 ?_
      simp only [List.length_set, List.length_dropLast, List.length_cons] at hjl ⊢
      omega
    · intro h0
      exact absurd h0 (by omega)

lemma isHeap_root_min (l : List HuffmanNode) (hh : IsHeap l) :
    ∀ j, j < l.length → freqAt l 0 ≤ freqAt l j := by
  intro j
  induction j using Nat.strong_induction_on with
  | _ j ih =>
    intro hjl
    rcases Nat.eq_zero_or_pos j with rfl | hj0
    · exact le_rfl
    · exact le_trans (ih ((j - 1) / 2) (by omega) (by omega)) (hh j hj0 hjl)

lemma runHeapOps_isHeap (ops : List HeapOp) : IsHeap (runHeapOps ops) := by
  suffices H : ∀ h, IsHeap h → IsHeap (ops.foldl applyHeapOp h) by
    exact H [] (by intro j hj0 hjl; simp at hjl)
  induction ops with
  | nil => intro h hh; exact hh
  | cons op ops ih =>
    intro h hh
    refine ih _ ?_
    cases op with
    | ins n => exact insert_isHeap h hh n
    | ext => exact extractMin_isHeap h hh

/-! ### Prefix-freeness of the generated code table -/

lemma begins_cons (a b : Char) (as bs : List Char) :
    begins (a :: as) (b :: bs) = ((a = b : Bool) && begins as bs) := rfl

/-- The relative code lists of well-formed trees are prefix-free: between any
two entries, neither code begins the other. -/
lemma relCodes_pf {t : HuffmanNode} (h : WFTree t) :
    (relCodes t).Pairwise
      (fun p q => begins p.2 q.2 = false ∧ begins q.2 p.2 = false) := by
  induction h with
  | leaf c f i => simp [relCodes]
  | node f i l r hl hr ihl ihr =>
    simp only [relCodes]
    rw [List.pairwise_append]
    refine ⟨?_, ?_, ?_⟩
    · rw [List.pairwise_map]
      refine ihl.imp ?_
      intro p q hpq
      simpa [begins_cons] using hpq
    · rw [List.pairwise_map]
      refine ihr.imp ?_
      intro p q hpq
      simpa [begins_cons] using hpq
    · intro p hp q hq
      obtain ⟨p', _, rfl⟩ := List.mem_map.mp hp
      obtain ⟨q', _, rfl⟩ := List.mem_map.mp hq
      constructor <;> simp [begins_cons]

/-- C2: for every non-empty frequency table, the code table produced by
`generateCodes` on the tree built by `buildHuffmanTree` is prefix-free —
between any two entries of the table, neither symbol's bit string is a
leading block of the other's. -/
theorem claim_C2_prefix_free (freqs : List (Char × Nat)) (hne : freqs ≠ []) :
    (generateCodes (buildHuffmanTree freqs)).Pairwise
      (fun p q => begins p.2 q.2 = false ∧ begins q.2 p.2 = false) := by
  by_cases hone : freqs.length = 1
  · obtain ⟨p, rest, rfl⟩ := List.exists_cons_of_ne_nil hne
    have hrest : rest = [] := by
      simp only [List.length_cons] at hone
      exact List.eq_nil_of_length_eq_zero (by omega)
    subst hrest
    obtain ⟨c, f⟩ := p
    rw [buildHuffmanTree_single, generateCodes_single]
    simp
  · have h2 : 2 ≤ freqs.length := by
      have h1 : 0 < freqs.length := List.length_pos.mpr hne
      omega
    obtain ⟨hwf, hchar, _⟩ := buildHuffmanTree_ge2 freqs h2
    obtain ⟨f, i, l, r, heq, hl, hr⟩ := hwf.internal_shape hchar
    rw [heq]
    rw [show generateCodes (.mk none f l r i) = traverse (.mk none f l r i) [] from rfl,
      traverse_nil_eq_relCodes hl hr]
    exact relCodes_pf (heq ▸ hwf)

/-- C2 (witness): the two-symbol table `{a:2, b:1}` yields a prefix-free
code table. -/
theorem claim_C2_prefix_free_witness :
    ([(('a' : Char), (2 : Nat)), ('b', 1)] ≠ []) ∧
    (generateCodes (buildHuffmanTree [(('a' : Char), (2 : Nat)), ('b', 1)])).Pairwise
      (fun p q => begins p.2 q.2 = false ∧ begins q.2 p.2 = false) :=
  ⟨by decide, claim_C2_prefix_free [(('a' : Char), (2 : Nat)), ('b', 1)] (by decide)⟩

/-- C1: for every non-empty sequence of symbols `S`, decompressing the result
of compressing `S` — with the compressed payload, the tree and the padding
produced by `compress` — returns exactly `S`, with `success = true` and no
error. -/
theorem claim_C1_roundtrip (S : List Char) (hS : S ≠ []) :
    decompress (compress S).compressedData (compress S).tree (compress S).paddingBits =
      some { decompressedText := S, success := true, error := none } :=
  roundtrip_core S

/-- C1 (witness): the round trip at the concrete input `"ab"`. -/
theorem claim_C1_roundtrip_witness :
    ("ab".toList ≠ []) ∧
    decompress (compress "ab".toList).compressedData (compress "ab".toList).tree
        (compress "ab".toList).paddingBits =
      some { decompressedText := "ab".toList, success := true, error := none } :=
  ⟨by decide, claim_C1_roundtrip "ab".toList (by decide)⟩

/-- C4 (amended): in the min-heap priority queue, every `extractMin` on the
state reached by any sequence of `insert`/`extractMin` operations removes a
queued node of minimal frequency; ties among equal-frequency nodes are
broken by heap-array position, not necessarily by insertion order. -/
theorem claim_C4_min_extraction (ops : List HeapOp) (x : HuffmanNode)
    (h' : List HuffmanNode)
    (hx : MinHeap.extractMin (runHeapOps ops) = (some x, h')) :
    x ∈ runHeapOps ops ∧ ∀ y ∈ runHeapOps ops, x.freq ≤ y.freq := by
  have hh := runHeapOps_isHeap ops
  rcases hne : runHeapOps ops with _ | ⟨z, t⟩
  · rw [hne] at hx
    simp [MinHeap.extractMin] at hx
  · rw [hne] at hx
    have hz : z = x := by
      have hfst := extractMin_fst z t
      rw [hx] at hfst
      exact (Option.some_injective _ hfst).symm
    subst hz
    rw [hne] at hh
    refine ⟨by simp, ?_⟩
    intro y hy
    obtain ⟨j, hj, hje⟩ := List.mem_iff_getElem.mp hy
    have h0 : freqAt (z :: t) 0 = z.freq := rfl
    have hjf : freqAt (z :: t) j = y.freq := by
      simp only [freqAt, List.getD, List.get?_eq_getElem?, List.getElem?_eq_getElem hj, hje]
      rfl
    have := isHeap_root_min (z :: t) hh j hj
    rw [h0, hjf] at this
    exact this

/-- C4 (witness): extraction after two inserts removes a minimal node. -/
theorem claim_C4_min_extraction_witness :
    MinHeap.extractMin (runHeapOps [HeapOp.ins tieA, HeapOp.ins tieB]) =
      (some tieA, [tieB]) ∧
    tieA ∈ runHeapOps [HeapOp.ins tieA, HeapOp.ins tieB] ∧
    ∀ y ∈ runHeapOps [HeapOp.ins tieA, HeapOp.ins tieB], tieA.freq ≤ y.freq :=
  ⟨by decide, claim_C4_min_extraction [HeapOp.ins tieA, HeapOp.ins tieB] tieA [tieB]
    (by decide)⟩

/-! ### Totality of `decompress` on built trees -/

/-- On a well-formed internal tree the decoding walk always produces a
result, whatever the bit string. -/
lemma decodeLoop_wf_total {root : HuffmanNode}
    (hroot : WFTree root) (hrootc : root.char = none) :
    ∀ (bits : List Char) (t : HuffmanNode), WFTree t → t.char = none →
      ∀ (acc : List Char), ∃ out, decodeLoop root bits t acc = some out := by
  intro bits
  induction bits with
  | nil => exact fun t _ _ acc => ⟨acc, rfl⟩
  | cons b bits ih =>
    intro t hwf hc acc
    obtain ⟨f, i, l, r, rfl, hl, hr⟩ := hwf.internal_shape hc
    simp only [decodeLoop, isShortcut_false_of_wf (WFTree.node f i l r hl hr),
      Bool.false_eq_true, if_false]
    by_cases hb : b = '0'
    · cases hl with
      | leaf c2 f2 i2 =>
        simp only [decodeStep, HuffmanNode.left, hb, if_pos rfl]
        exact ih root hroot hrootc (acc ++ [c2])
      | node f2 i2 l2 r2 hl2 hr2 =>
        simp only [decodeStep, HuffmanNode.left, hb, if_pos rfl]
        exact ih _ (WFTree.node f2 i2 l2 r2 hl2 hr2) rfl acc
    · cases hr with
      | leaf c2 f2 i2 =>
        simp only [decodeStep, HuffmanNode.right, if_neg hb]
        exact ih root hroot hrootc (acc ++ [c2])
      | node f2 i2 l2 r2 hl2 hr2 =>
        simp only [decodeStep, HuffmanNode.right, if_neg hb]
        exact ih _ (WFTree.node f2 i2 l2 r2 hl2 hr2) rfl acc

/-- C9: `decompress` never produces a failure: for every byte payload, every
`paddingBits` in `[0,7]` and every tree returned by `buildHuffmanTree`
(including the null tree of the empty table), it returns a result with
`success = true` and the `error` field unset. -/
theorem claim_C9_no_failure (data : List Nat) (freqs : List (Char × Nat))
    (p : Nat) (hp : p ≤ 7) :
    ∃ r, decompress data (buildHuffmanTree freqs) p = some r ∧
      r.success = true ∧ r.error = none := by
  by_cases h0 : freqs = []
  · subst h0
    exact ⟨_, rfl, rfl, rfl⟩
  by_cases hone : freqs.length = 1
  · obtain ⟨q, rest, rfl⟩ := List.exists_cons_of_ne_nil h0
    have hrest : rest = [] := by
      simp only [List.length_cons] at hone
      exact List.eq_nil_of_length_eq_zero (by omega)
    subst hrest
    obtain ⟨c, f⟩ := q
    rw [buildHuffmanTree_single]
    by_cases hde : data.isEmpty
    · simp only [decompress, hde, if_true]
      exact ⟨_, rfl, rfl, rfl⟩
    · have hde' : data.isEmpty = false := by simpa using hde
      simp only [decompress, hde', Bool.false_eq_true, if_false]
      rw [decodeLoop_wrapper]
      exact ⟨_, rfl, rfl, rfl⟩
  · have h2 : 2 ≤ freqs.length := by
      have h1 : 0 < freqs.length := List.length_pos.mpr h0
      omega
    obtain ⟨hwf, hchar, _⟩ := buildHuffmanTree_ge2 freqs h2
    obtain ⟨f, i, l, r, heq, hl, hr⟩ := hwf.internal_shape hchar
    rw [heq]
    by_cases hde : data.isEmpty
    · simp only [decompress, hde, if_true]
      exact ⟨_, rfl, rfl, rfl⟩
    · have hde' : data.isEmpty = false := by simpa using hde
      simp only [decompress, hde', Bool.false_eq_true, if_false]
      obtain ⟨out, hout⟩ := decodeLoop_wf_total (heq ▸ hwf) (by rfl)
        (if p > 0 then (data.flatMap byteToBits).take ((data.flatMap byteToBits).length - p)
          else data.flatMap byteToBits)
        (.mk none f l r i) (WFTree.node f i l r hl hr) rfl []
      rw [hout]
      exact ⟨_, rfl, rfl, rfl⟩

/-- C9 (witness): a concrete payload, padding and table. -/
theorem claim_C9_no_failure_witness :
    (3 : Nat) ≤ 7 ∧
    ∃ r, decompress [129, 6] (buildHuffmanTree [(('a' : Char), (2 : Nat)), ('b', 1)]) 3 =
      some r ∧ r.success = true ∧ r.error = none :=
  ⟨by decide, claim_C9_no_failure [129, 6] [(('a' : Char), (2 : Nat)), ('b', 1)] 3
    (by decide)⟩

/-! ### UTF-8 round trip -/

lemma toNat_ofNat_small (m : Nat) (h : m < 55296) : (Char.ofNat m).toNat = m := by
  rw [Char.ofNat, dif_pos (Or.inl h)]
  rfl

lemma utf8DecodeF_nil (fuel : Nat) : utf8DecodeF fuel [] = [] := by
  cases fuel <;> rfl

lemma utf8EncodeChar_length_pos (c : Char) : 0 < (utf8EncodeChar c).length := by
  simp only [utf8EncodeChar]
  split
  · simp
  · split
    · simp
    · split <;> simp

/-- Decoding one UTF-8-encoded character consumes exactly that character. -/
lemma utf8DecodeF_char (fuel : Nat) (c : Char) (rest : List Nat) :
    utf8DecodeF (fuel + 1) (utf8EncodeChar c ++ rest) = c :: utf8DecodeF fuel rest := by
  have hvbound : c.toNat < 1114112 := by
    have h := c.valid
    rcases h with h | h
    · have h' : c.val.toNat < 55296 := h
      simp only [Char.toNat]
      omega
    · exact h.2
  simp only [utf8EncodeChar]
  by_cases h1 : c.toNat < 128
  · rw [if_pos h1]
    simp only [List.cons_append, List.nil_append, utf8DecodeF]
    rw [if_pos h1]
    rw [Char.ofNat_toNat]
  · rw [if_neg h1]
    by_cases h2 : c.toNat < 2048
    · rw [if_pos h2]
      simp only [List.cons_append, List.nil_append, utf8DecodeF]
      rw [if_neg (by omega), if_pos (by constructor <;> omega),
        if_pos (by constructor <;> omega)]
      rw [show (192 + c.toNat / 64 - 192) * 64 + (128 + c.toNat % 64 - 128) = c.toNat by
        omega]
      rw [Char.ofNat_toNat]
    · rw [if_neg h2]
      by_cases h3 : c.toNat < 65536
      · rw [if_pos h3]
        simp only [List.cons_append, List.nil_append, utf8DecodeF]
        rw [if_neg (by omega), if_neg (by omega), if_pos (by constructor <;> omega),
          if_pos (by refine ⟨⟨?_, ?_⟩, ?_, ?_⟩ <;> omega)]
        rw [show (224 + c.toNat / 4096 - 224) * 4096 + (128 + c.toNat / 64 % 64 - 128) * 64 +
            (128 + c.toNat % 64 - 128) = c.toNat by omega]
        rw [Char.ofNat_toNat]
      · rw [if_neg h3]
        simp only [List.cons_append, List.nil_append, utf8DecodeF]
        rw [if_neg (by omega), if_neg (by omega), if_neg (by omega),
          if_pos (by constructor <;> omega),
          if_pos (by refine ⟨⟨?_, ?_⟩, ⟨?_, ?_⟩, ?_, ?_⟩ <;> omega)]
        rw [show (240 + c.toNat / 262144 - 240) * 262144 +
            (128 + c.toNat / 4096 % 64 - 128) * 4096 +
            (128 + c.toNat / 64 % 64 - 128) * 64 + (128 + c.toNat % 64 - 128) = c.toNat by
          omega]
        rw [Char.ofNat_toNat]

/-- Decoding an encoded string with sufficient fuel recovers the string. -/
lemma utf8DecodeF_encode : ∀ (s : List Char) (fuel : Nat),
    (utf8Encode s).length ≤ fuel → utf8DecodeF fuel (utf8Encode s) = s := by
  intro s
  induction s with
  | nil => intro fuel _; exact utf8DecodeF_nil fuel
  | cons c s ih =>
    intro fuel hfuel
    have hsplit : utf8Encode (c :: s) = utf8EncodeChar c ++ utf8Encode s := by
      simp [utf8Encode]
    rw [hsplit] at hfuel ⊢
    have hcpos := utf8EncodeChar_length_pos c
    obtain ⟨f, rfl⟩ : ∃ f, fuel = f + 1 := by
      cases fuel with
      | zero =>
        exfalso
        simp only [List.length_append] at hfuel
        omega
      | succ f => exact ⟨f, rfl⟩
    rw [utf8DecodeF_char f c (utf8Encode s)]
    rw [ih f (by simp only [List.length_append] at hfuel; omega)]

lemma utf8Decode_encode (s : List Char) : utf8Decode (utf8Encode s) = s :=
  utf8DecodeF_encode s (utf8Encode s).length le_rfl


/-! ### JSON round trip: string literals -/

lemma intercalate_cons (sep x : List Char) (xs : List (List Char)) :
    List.intercalate sep (x :: xs) =
      if xs = [] then x else x ++ sep ++ List.intercalate sep xs := by
  cases xs with
  | nil => simp [List.intercalate, List.intersperse_singleton]
  | cons y ys => simp [List.intercalate, List.intersperse_cons_cons]

lemma hexVal_hexDigitChar (v : Nat) (h : v < 16) : hexVal (hexDigitChar v) = some v := by
  interval_cases v <;> rfl

lemma lexJStr_quote (t : List Char) : lexJStr ('"' :: t) = some ([], t) := by
  rw [lexJStr.eq_def]
  rfl

lemma lexJStr_other (c : Char) (t : List Char) (h1 : ¬ c = '"') (h2 : ¬ c = '\\') :
    lexJStr (c :: t) = (lexJStr t).map (fun p => (c :: p.1, p.2)) := by
  rw [lexJStr.eq_def]
  simp only [if_neg h1, if_neg h2]

lemma lexJStr_escQuote (t : List Char) :
    lexJStr ('\\' :: '"' :: t) = (lexJStr t).map (fun p => ('"' :: p.1, p.2)) := rfl

lemma lexJStr_escBackslash (t : List Char) :
    lexJStr ('\\' :: '\\' :: t) = (lexJStr t).map (fun p => ('\\' :: p.1, p.2)) := rfl

lemma lexJStr_escB (t : List Char) :
    lexJStr ('\\' :: 'b' :: t) = (lexJStr t).map (fun p => (Char.ofNat 8 :: p.1, p.2)) := rfl

lemma lexJStr_escT (t : List Char) :
    lexJStr ('\\' :: 't' :: t) = (lexJStr t).map (fun p => (Char.ofNat 9 :: p.1, p.2)) := rfl

lemma lexJStr_escN (t : List Char) :
    lexJStr ('\\' :: 'n' :: t) = (lexJStr t).map (fun p => (Char.ofNat 10 :: p.1, p.2)) := rfl

lemma lexJStr_escF (t : List Char) :
    lexJStr ('\\' :: 'f' :: t) = (lexJStr t).map (fun p => (Char.ofNat 12 :: p.1, p.2)) := rfl

lemma lexJStr_escR (t : List Char) :
    lexJStr ('\\' :: 'r' :: t) = (lexJStr t).map (fun p => (Char.ofNat 13 :: p.1, p.2)) := rfl

lemma lexJStr_escU (t : List Char) (h3 h4 : Char) (v3 v4 : Nat)
    (hv3 : hexVal h3 = some v3) (hv4 : hexVal h4 = some v4) :
    lexJStr ('\\' :: 'u' :: '0' :: '0' :: h3 :: h4 :: t) =
      (lexJStr t).map (fun p => (Char.ofNat (v3 * 16 + v4) :: p.1, p.2)) := by
  rw [lexJStr.eq_def]
  simp only [hv3, hv4, show hexVal '0' = some 0 from rfl]
  rw [if_neg (show ('\\' : Char) = '"' -> False from by decide), if_pos trivial]
  norm_num

/-- `lexJStr` undoes the ECMAScript string escaping performed by
`jsonEscapeChar`, stopping at the closing quote. -/
lemma lexJStr_append (s rest : List Char) :
    lexJStr (s.flatMap jsonEscapeChar ++ '"' :: rest) = some (s, rest) := by
  induction s with
  | nil => simpa using lexJStr_quote rest
  | cons c s ih =>
    simp only [List.flatMap_cons, List.append_assoc]
    by_cases hq : c = '"'
    · subst hq
      rw [show jsonEscapeChar '"' = ['\\', '"'] from rfl]
      simp only [List.cons_append, List.nil_append, lexJStr_escQuote, ih, Option.map_some']
    · by_cases hb : c = '\\'
      · subst hb
        rw [show jsonEscapeChar '\\' = ['\\', '\\'] from rfl]
        simp only [List.cons_append, List.nil_append, lexJStr_escBackslash, ih, Option.map_some']
      · by_cases h8 : c = Char.ofNat 8
        · subst h8
          rw [show jsonEscapeChar (Char.ofNat 8) = ['\\', 'b'] from rfl]
          simp only [List.cons_append, List.nil_append, lexJStr_escB, ih, Option.map_some']
        · by_cases h9 : c = Char.ofNat 9
          · subst h9
            rw [show jsonEscapeChar (Char.ofNat 9) = ['\\', 't'] from rfl]
            simp only [List.cons_append, List.nil_append, lexJStr_escT, ih, Option.map_some']
          · by_cases h10 : c = Char.ofNat 10
            · subst h10
              rw [show jsonEscapeChar (Char.ofNat 10) = ['\\', 'n'] from rfl]
              simp only [List.cons_append, List.nil_append, lexJStr_escN, ih, Option.map_some']
            · by_cases h12 : c = Char.ofNat 12
              · subst h12
                rw [show jsonEscapeChar (Char.ofNat 12) = ['\\', 'f'] from rfl]
                simp only [List.cons_append, List.nil_append, lexJStr_escF, ih, Option.map_some']
              · by_cases h13 : c = Char.ofNat 13
                · subst h13
                  rw [show jsonEscapeChar (Char.ofNat 13) = ['\\', 'r'] from rfl]
                  simp only [List.cons_append, List.nil_append, lexJStr_escR, ih,
                    Option.map_some']
                · by_cases hctl : c.toNat < 32
                  · rw [show jsonEscapeChar c =
                        ['\\', 'u', '0', '0', hexDigitChar (c.toNat / 16),
                          hexDigitChar (c.toNat % 16)] from by
                      simp only [jsonEscapeChar, if_neg hq, if_neg hb, if_neg h8, if_neg h9,
                        if_neg h10, if_neg h12, if_neg h13, if_pos hctl]]
                    simp only [List.cons_append, List.nil_append]
                    rw [lexJStr_escU _ _ _ _ _
                      (hexVal_hexDigitChar _ (by omega))
                      (hexVal_hexDigitChar _ (Nat.mod_lt _ (by norm_num))), ih]
                    rw [show c.toNat / 16 * 16 + c.toNat % 16 = c.toNat from by omega,
                      Char.ofNat_toNat]
                    rfl
                  · rw [show jsonEscapeChar c = [c] from by
                      simp only [jsonEscapeChar, if_neg hq, if_neg hb, if_neg h8, if_neg h9,
                        if_neg h10, if_neg h12, if_neg h13, if_neg hctl]]
                    simp only [List.cons_append, List.nil_append]
                    rw [lexJStr_other c _ hq hb, ih]
                    rfl

/-- `lexStrVal` undoes `jsonQuote`. -/
lemma lexStrVal_append (s rest : List Char) :
    lexStrVal (jsonQuote s ++ rest) = some (s, rest) := by
  show lexStrVal ('"' :: (s.flatMap jsonEscapeChar ++ ['"']) ++ rest) = some (s, rest)
  rw [show ('"' :: (s.flatMap jsonEscapeChar ++ ['"']) ++ rest) =
      '"' :: (s.flatMap jsonEscapeChar ++ '"' :: rest) from by simp]
  show lexJStr (s.flatMap jsonEscapeChar ++ '"' :: rest) = some (s, rest)
  exact lexJStr_append s rest

/-! ### JSON round trip: numbers -/

lemma natDigitsF_digit (fuel : Nat) : ∀ n c, c ∈ natDigitsF fuel n →
    48 ≤ c.toNat ∧ c.toNat ≤ 57 := by
  induction fuel with
  | zero => intro n c hc; simp [natDigitsF] at hc
  | succ fuel ih =>
    intro n c hc
    rw [natDigitsF] at hc
    by_cases hn : n = 0
    · rw [if_pos hn] at hc; simp at hc
    · rw [if_neg hn] at hc
      rcases List.mem_append.mp hc with h | h
      · exact ih _ _ h
      · have : c = Char.ofNat (48 + n % 10) := by simpa using h
        subst this
        rw [toNat_ofNat_small _ (by omega)]
        omega

lemma natDigitsF_foldl (fuel : Nat) : ∀ n a, n ≤ fuel →
    (natDigitsF fuel n).foldl (fun a c => 10 * a + (c.toNat - 48)) a =
      a * 10 ^ (natDigitsF fuel n).length + n := by
  induction fuel with
  | zero => intro n a h
            have : n = 0 := by omega
            subst this
            simp [natDigitsF]
  | succ fuel ih =>
    intro n a h
    rw [natDigitsF]
    by_cases hn : n = 0
    · rw [if_pos hn]; simp [hn]
    · rw [if_neg hn]
      rw [List.foldl_append, List.length_append]
      rw [ih (n / 10) a (by
        have := Nat.div_lt_self (Nat.pos_of_ne_zero hn) (by norm_num : 1 < 10)
        omega)]
      simp only [List.foldl_cons, List.foldl_nil, List.length_cons, List.length_nil]
      rw [toNat_ofNat_small _ (by omega)]
      have hmod : 48 + n % 10 - 48 = n % 10 := by omega
      rw [hmod, pow_succ]
      have hdm : 10 * (n / 10) + n % 10 = n := by omega
      ring_nf
      omega

lemma natDigitsF_ne_nil (fuel n : Nat) (hn : n ≠ 0) (hf : fuel ≠ 0) :
    natDigitsF fuel n ≠ [] := by
  cases fuel with
  | zero => exact absurd rfl hf
  | succ fuel => rw [natDigitsF, if_neg hn]; simp

lemma printNat_digit (n : Nat) : ∀ c ∈ printNat n, 48 ≤ c.toNat ∧ c.toNat ≤ 57 := by
  intro c hc
  rw [printNat] at hc
  by_cases hn : n = 0
  · rw [if_pos hn] at hc
    have : c = '0' := by simpa using hc
    subst this; decide
  · rw [if_neg hn] at hc
    exact natDigitsF_digit n n c hc

lemma printNat_foldl (n : Nat) :
    (printNat n).foldl (fun a c => 10 * a + (c.toNat - 48)) 0 = n := by
  rw [printNat]
  by_cases hn : n = 0
  · rw [if_pos hn]; simp [hn]
  · rw [if_neg hn, natDigits]
    rw [natDigitsF_foldl n n 0 le_rfl]
    simp

lemma printNat_ne_nil (n : Nat) : printNat n ≠ [] := by
  rw [printNat]
  by_cases hn : n = 0
  · rw [if_pos hn]; simp
  · rw [if_neg hn]; exact natDigitsF_ne_nil n n hn hn

lemma takeWhile_append_of (p : Char → Bool) (ds r : List Char)
    (hds : ∀ c ∈ ds, p c = true) (hr : ∀ c, r.head? = some c → p c = false) :
    (ds ++ r).takeWhile p = ds ∧ (ds ++ r).dropWhile p = r := by
  induction ds with
  | nil =>
    cases r with
    | nil => simp
    | cons c cs =>
      have := hr c rfl
      simp [List.takeWhile_cons, List.dropWhile_cons, this]
  | cons d ds ih =>
    have hd : p d = true := hds d (List.mem_cons_self d ds)
    have := ih (fun c hc => hds c (List.mem_cons_of_mem d hc))
    simp [List.takeWhile_cons, List.dropWhile_cons, hd, this.1, this.2]

/-- `lexNat` undoes `printNat` when the remainder does not begin with a
digit. -/
lemma lexNat_append (n : Nat) (r : List Char)
    (hr : ∀ c, r.head? = some c → ¬(48 ≤ c.toNat ∧ c.toNat ≤ 57)) :
    lexNat (printNat n ++ r) = some (n, r) := by
  obtain ⟨htake, hdrop⟩ := takeWhile_append_of
    (fun c => decide (48 ≤ c.toNat ∧ c.toNat ≤ 57)) (printNat n) r
    (fun c hc => by simpa using printNat_digit n c hc)
    (fun c hc => by simpa using hr c hc)
  rw [lexNat]
  simp only [htake, hdrop]
  rw [if_neg (by simpa [List.isEmpty_iff] using printNat_ne_nil n)]
  rw [printNat_foldl]

/-! ### JSON round trip: objects -/

lemma dropLit_append (pat rest : List Char) : dropLit pat (pat ++ rest) = some rest := by
  induction pat with
  | nil => rfl
  | cons p ps ih => simp [dropLit, ih]

lemma lexObjEntriesF_mid {α : Type} (pv : List Char → Option (α × List Char))
    (fuel : Nat) (T : List Char) (k : Char) (r1 : List Char) (v : α) (r2 : List Char)
    (hl : lexJStr T = some ([k], ':' :: r1)) (hv : pv r1 = some (v, ',' :: r2)) :
    lexObjEntriesF pv (fuel + 1) ('"' :: T) =
      (lexObjEntriesF pv fuel r2).map (fun p => ((k, v) :: p.1, p.2)) := by
  rw [lexObjEntriesF]
  simp only [hl, hv]

lemma lexObjEntriesF_last {α : Type} (pv : List Char → Option (α × List Char))
    (fuel : Nat) (T : List Char) (k : Char) (r1 : List Char) (v : α) (r2 : List Char)
    (hl : lexJStr T = some ([k], ':' :: r1)) (hv : pv r1 = some (v, '\x7d' :: r2)) :
    lexObjEntriesF pv (fuel + 1) ('"' :: T) = some ([(k, v)], r2) := by
  rw [lexObjEntriesF]
  simp only [hl, hv]

/-- `lexObjEntriesF` undoes the entry list of `jsonObjOf`, provided the
value lexer `pv` undoes the value printer `pr` in front of a `','` or
`'\x7d'` delimiter and the fuel covers the number of entries. -/
lemma lexObjEntriesF_append {α : Type} (pv : List Char → Option (α × List Char))
    (pr : α → List Char)
    (hpv : ∀ v r, (r.head? = some ',' ∨ r.head? = some '\x7d') →
      pv (pr v ++ r) = some (v, r)) :
    ∀ (m : List (Char × α)) (fuel : Nat) (rest : List Char), m ≠ [] → m.length ≤ fuel →
    lexObjEntriesF pv fuel
      (List.intercalate [','] (m.map (fun p => jsonQuote [p.1] ++ ':' :: pr p.2)) ++
        '\x7d' :: rest) = some (m, rest) := by
  intro m
  induction m with
  | nil => intro fuel rest hne _; exact absurd rfl hne
  | cons kv m ih =>
    intro fuel rest _ hfuel
    obtain ⟨k, v⟩ := kv
    cases fuel with
    | zero => simp at hfuel
    | succ fuel =>
      rw [List.map_cons, intercalate_cons]
      by_cases hm : m = []
      · subst hm
        rw [if_pos (by simp)]
        rw [show (jsonQuote [k] ++ ':' :: pr v) ++ '\x7d' :: rest =
            '"' :: ([k].flatMap jsonEscapeChar ++ '"' :: ':' :: (pr v ++ '\x7d' :: rest)) from by
          simp [jsonQuote]]
        exact lexObjEntriesF_last pv fuel _ k _ v rest (lexJStr_append [k] _)
          (hpv v _ (Or.inr rfl))
      · rw [if_neg (by simpa using hm)]
        rw [show ((jsonQuote [k] ++ ':' :: pr v) ++ [','] ++
              List.intercalate [',']
                (m.map (fun p => jsonQuote [p.1] ++ ':' :: pr p.2))) ++ '\x7d' :: rest =
            '"' :: ([k].flatMap jsonEscapeChar ++ '"' :: ':' :: (pr v ++ ',' ::
              (List.intercalate [',']
                (m.map (fun p => jsonQuote [p.1] ++ ':' :: pr p.2)) ++ '\x7d' :: rest))) from by
          simp [jsonQuote]]
        rw [lexObjEntriesF_mid pv fuel _ k _ v _ (lexJStr_append [k] _) (hpv v _ (Or.inl rfl))]
        rw [ih fuel rest hm (by simp only [List.length_cons] at hfuel; omega)]
        rfl

lemma entries_length_le {α : Type} (pr : α → List Char) (m : List (Char × α))
    (rest : List Char) :
    m.length ≤ (List.intercalate [',']
      (m.map (fun p => jsonQuote [p.1] ++ ':' :: pr p.2)) ++ '\x7d' :: rest).length := by
  induction m with
  | nil => simp
  | cons kv m ih =>
    rw [List.map_cons, intercalate_cons]
    by_cases hm : m = []
    · subst hm
      rw [if_pos (by simp)]
      simp [jsonQuote]
    · rw [if_neg (by simpa using hm)]
      simp only [List.length_append, List.length_cons] at ih ⊢
      omega

/-- `lexObj` undoes `jsonObjOf` (including the empty object). -/
lemma lexObj_append {α : Type} (pv : List Char → Option (α × List Char))
    (pr : α → List Char)
    (hpv : ∀ v r, (r.head? = some ',' ∨ r.head? = some '\x7d') →
      pv (pr v ++ r) = some (v, r)) (m : List (Char × α)) (rest : List Char) :
    lexObj pv (jsonObjOf pr m ++ rest) = some (m, rest) := by
  cases m with
  | nil => rfl
  | cons kv m' =>
    obtain ⟨k, v⟩ := kv
    obtain ⟨T, hT⟩ : ∃ T, (List.intercalate [',']
        (((k, v) :: m').map (fun p => jsonQuote [p.1] ++ ':' :: pr p.2)) ++
          '\x7d' :: rest) = '"' :: T := by
      rw [List.map_cons, intercalate_cons]
      by_cases hm : m' = []
      · subst hm
        rw [if_pos (by simp)]
        exact ⟨jsonEscapeChar k ++ '"' :: ':' :: (pr v ++ '\x7d' :: rest),
          by simp [jsonQuote]⟩
      · rw [if_neg (by simpa using hm)]
        exact ⟨jsonEscapeChar k ++ '"' :: ':' :: (pr v ++ ',' ::
          (List.intercalate [','] (m'.map (fun p => jsonQuote [p.1] ++ ':' :: pr p.2)) ++
            '\x7d' :: rest)), by simp [jsonQuote]⟩
    rw [show jsonObjOf pr ((k, v) :: m') ++ rest =
        '\x7b' :: (List.intercalate [',']
          (((k, v) :: m').map (fun p => jsonQuote [p.1] ++ ':' :: pr p.2)) ++
            '\x7d' :: rest) from by simp [jsonObjOf]]
    rw [hT]
    rw [show lexObj pv ('\x7b' :: '"' :: T) =
        lexObjEntriesF pv ('"' :: T).length ('"' :: T) from rfl]
    rw [← hT]
    exact lexObjEntriesF_append pv pr hpv ((k, v) :: m') _ rest (by simp)
      (by rw [hT]; exact hT ▸ entries_length_le pr ((k, v) :: m') rest)

/-! ### JSON round trip: the metadata document -/

/-- `parseMetadata` undoes `metadataJson`. -/
lemma parseMetadata_append (cm : List (Char × List Char)) (p : Nat)
    (fm : List (Char × Nat)) :
    parseMetadata (metadataJson cm p fm) = some (cm, p, fm) := by
  have h1 : ∀ rest : List Char,
      lexObj lexStrVal (jsonObjOf jsonQuote cm ++ rest) = some (cm, rest) :=
    lexObj_append lexStrVal jsonQuote (fun v r _ => lexStrVal_append v r) cm
  have hnum : lexNat (printNat p ++ (",\"frequencyMap\":".toList ++
        (jsonObjOf printNat fm ++ ['\x7d']))) =
      some (p, ",\"frequencyMap\":".toList ++ (jsonObjOf printNat fm ++ ['\x7d'])) := by
    apply lexNat_append
    intro c hc
    have : c = ',' := by
      have hh : ((",\"frequencyMap\":".toList ++
          (jsonObjOf printNat fm ++ ['\x7d'])).head?) = some ',' := rfl
      rw [hh] at hc
      exact (Option.some_inj.mp hc).symm
    subst this
    decide
  have h2 : lexObj lexNat (jsonObjOf printNat fm ++ ['\x7d']) = some (fm, ['\x7d']) := by
    apply lexObj_append
    intro v r hr
    apply lexNat_append
    intro c hc
    rcases hr with hr | hr <;> rw [hr] at hc <;>
      (injection hc with hc; subst hc; decide)
  rw [metadataJson, parseMetadata]
  simp only [List.append_assoc]
  simp only [dropLit_append, h1, hnum, h2]

/-! ### Framing round trip -/

lemma drop_four_cons {β : Type} (a b c d : β) (X : List β) (m : Nat) :
    (a :: b :: c :: d :: X).drop (4 + m) = X.drop m := by
  rw [show 4 + m = m + 1 + 1 + 1 + 1 from by omega]
  simp [List.drop_succ_cons]

/-- Parsing undoes framing: `parseCompressedFile` applied to
`createCompressedFile r` recovers the three metadata fields and the payload,
provided the metadata is shorter than `2^32` bytes (so its byte length
survives the `Uint32Array` cell unchanged). -/
lemma parse_create (r : CompressionResult)
    (h : (utf8Encode (metadataJson r.codeMap r.paddingBits r.frequencyMap)).length <
      4294967296) :
    parseCompressedFile (createCompressedFile r) =
      some { compressedData := r.compressedData, codeMap := r.codeMap,
             paddingBits := r.paddingBits, frequencyMap := r.frequencyMap } := by
  set mb := utf8Encode (metadataJson r.codeMap r.paddingBits r.frequencyMap) with hmb
  set n := mb.length with hn
  have hD : createCompressedFile r =
      n % 256 :: n / 256 % 256 :: n / 65536 % 256 :: n / 16777216 % 256 ::
        (mb ++ r.compressedData) := by
    rw [createCompressedFile]
    simp [u32le, ← hmb, ← hn]
  rw [parseCompressedFile, hD]
  simp only [List.length_cons, List.length_append]
  rw [if_neg (by omega)]
  simp only [List.getD_cons_zero, List.getD_cons_succ]
  have hml : n % 256 + 256 * (n / 256 % 256) + 65536 * (n / 65536 % 256) +
      16777216 * (n / 16777216 % 256) = n := by omega
  rw [hml]
  rw [if_neg (by omega)]
  rw [show (n % 256 :: n / 256 % 256 :: n / 65536 % 256 :: n / 16777216 % 256 ::
      (mb ++ r.compressedData)).drop 4 = mb ++ r.compressedData from rfl]
  rw [hn, List.take_left]
  rw [hmb, utf8Decode_encode, parseMetadata_append]
  rw [drop_four_cons]
  rw [List.drop_left]

/-! ### Container claims -/

lemma take_four_cons {β : Type} (a b c d : β) (X : List β) (m : Nat) :
    (a :: b :: c :: d :: X).take (4 + m) = a :: b :: c :: d :: X.take m := by
  rw [show 4 + m = m + 1 + 1 + 1 + 1 from by omega]
  simp [List.take_succ_cons]

/-- The decode side rebuilds exactly the encode-side tree from the frequency
map carried by the compression result (including the empty input, where both
sides are null). -/
lemma buildHuffmanTree_compress_freq (S : List Char) :
    buildHuffmanTree (compress S).frequencyMap = (compress S).tree := by
  by_cases hS : S.isEmpty
  · simp [compress, hS, buildHuffmanTree_nil]
  · have h : S.isEmpty = false := by simpa using hS
    rw [compress_freq S h, compress_tree S h]

/-- C3: for every input text `S` whose serialized metadata is shorter than
`2^32` bytes (so its length survives the `Uint32Array` cell), parsing the
container buffer created from `compress S` succeeds, recovers a frequency
map equal to `compress S`'s, and decoding the parsed payload with the tree
rebuilt from the parsed frequency map and the parsed `paddingBits`
reproduces `S`. -/
theorem claim_C3_container_roundtrip (S : List Char)
    (h : (utf8Encode (metadataJson (compress S).codeMap (compress S).paddingBits
      (compress S).frequencyMap)).length < 4294967296) :
    ∃ pf, parseCompressedFile (createCompressedFile (compress S)) = some pf ∧
      pf.frequencyMap = (compress S).frequencyMap ∧
      decompress pf.compressedData (buildHuffmanTree pf.frequencyMap) pf.paddingBits =
        some { decompressedText := S, success := true, error := none } := by
  refine ⟨_, parse_create (compress S) h, rfl, ?_⟩
  show decompress (compress S).compressedData
      (buildHuffmanTree (compress S).frequencyMap) (compress S).paddingBits = _
  rw [buildHuffmanTree_compress_freq]
  exact roundtrip_core S

/-- C3 (witness): the container round trip at the concrete input `"aab"`. -/
theorem claim_C3_container_roundtrip_witness :
    ((utf8Encode (metadataJson (compress "aab".toList).codeMap
        (compress "aab".toList).paddingBits
        (compress "aab".toList).frequencyMap)).length < 4294967296) ∧
    ∃ pf, parseCompressedFile (createCompressedFile (compress "aab".toList)) = some pf ∧
      pf.frequencyMap = (compress "aab".toList).frequencyMap ∧
      decompress pf.compressedData (buildHuffmanTree pf.frequencyMap) pf.paddingBits =
        some { decompressedText := "aab".toList, success := true, error := none } :=
  ⟨by decide, claim_C3_container_roundtrip "aab".toList (by decide)⟩

/-- C6: truncating a valid container buffer — one produced by
`createCompressedFile` with metadata below the `Uint32Array` bound — to
fewer than 4 bytes, or to any total length shorter than
`4 + metadataLength`, makes `parseCompressedFile` report failure by
returning `none`. -/
theorem claim_C6_truncation (r : CompressionResult) (L : Nat)
    (h : (utf8Encode (metadataJson r.codeMap r.paddingBits r.frequencyMap)).length <
      4294967296)
    (hL : L < 4 + (utf8Encode (metadataJson r.codeMap r.paddingBits
      r.frequencyMap)).length) :
    parseCompressedFile ((createCompressedFile r).take L) = none := by
  set mb := utf8Encode (metadataJson r.codeMap r.paddingBits r.frequencyMap) with hmb
  set n := mb.length with hn
  have hD : createCompressedFile r =
      n % 256 :: n / 256 % 256 :: n / 65536 % 256 :: n / 16777216 % 256 ::
        (mb ++ r.compressedData) := by
    rw [createCompressedFile]
    simp [u32le, ← hmb, ← hn]
  by_cases h4 : L < 4
  · have hc : ((createCompressedFile r).take L).length < 4 := by
      rw [List.length_take]
      omega
    rw [parseCompressedFile, if_pos hc]
  · obtain ⟨M, rfl⟩ : ∃ M, L = 4 + M := ⟨L - 4, by omega⟩
    rw [hD, take_four_cons, parseCompressedFile]
    rw [if_neg (by simp)]
    simp only [List.getD_cons_zero, List.getD_cons_succ]
    have hml : n % 256 + 256 * (n / 256 % 256) + 65536 * (n / 65536 % 256) +
        16777216 * (n / 16777216 % 256) = n := by omega
    rw [hml]
    rw [if_pos (by
      simp only [List.length_cons, List.length_take, List.length_append]
      omega)]

/-- C6 (witness): the 78-byte container for `"aab"` truncated to 10 bytes is
rejected. -/
theorem claim_C6_truncation_witness :
    ((utf8Encode (metadataJson (compress "aab".toList).codeMap
        (compress "aab".toList).paddingBits
        (compress "aab".toList).frequencyMap)).length < 4294967296) ∧
    (10 < 4 + (utf8Encode (metadataJson (compress "aab".toList).codeMap
        (compress "aab".toList).paddingBits
        (compress "aab".toList).frequencyMap)).length) ∧
    parseCompressedFile ((createCompressedFile (compress "aab".toList)).take 10) = none :=
  ⟨by decide, by decide, claim_C6_truncation (compress "aab".toList) 10 (by decide) (by decide)⟩

/-- C10: `compress` and `buildHuffmanTree` are deterministic — equal inputs
yield identical outputs, tree shape included — and the decode-side tree
rebuilt from the frequency map that survives the JSON container round trip
is structurally identical to the encode-side tree. -/
theorem claim_C10_determinism (S T : List Char) (hST : S = T)
    (h : (utf8Encode (metadataJson (compress S).codeMap (compress S).paddingBits
      (compress S).frequencyMap)).length < 4294967296) :
    compress S = compress T ∧
    buildHuffmanTree (compress S).frequencyMap = (compress S).tree ∧
    ∀ pf, parseCompressedFile (createCompressedFile (compress S)) = some pf →
      buildHuffmanTree pf.frequencyMap = (compress S).tree := by
  refine ⟨by rw [hST], buildHuffmanTree_compress_freq S, ?_⟩
  intro pf hpf
  rw [parse_create (compress S) h] at hpf
  obtain rfl : _ = pf := Option.some_inj.mp hpf
  exact buildHuffmanTree_compress_freq S

/-- C10 (witness): determinism and tree-rebuild identity at the concrete
input `"aab"`. -/
theorem claim_C10_determinism_witness :
    ("aab".toList = "aab".toList) ∧
    ((utf8Encode (metadataJson (compress "aab".toList).codeMap
        (compress "aab".toList).paddingBits
        (compress "aab".toList).frequencyMap)).length < 4294967296) ∧
    (compress "aab".toList = compress "aab".toList ∧
     buildHuffmanTree (compress "aab".toList).frequencyMap = (compress "aab".toList).tree ∧
     ∀ pf, parseCompressedFile (createCompressedFile (compress "aab".toList)) = some pf →
       buildHuffmanTree pf.frequencyMap = (compress "aab".toList).tree) :=
  ⟨rfl, by decide, claim_C10_determinism "aab".toList "aab".toList rfl (by decide)⟩

end Huffman
